import Mathlib

/-!
Verification development for the fsserve static file server.

The definitions below are shallow embeddings of the Go source:
filesystem state is explicit (association lists from names to file
metadata), the BLAKE2b digest of a source file is carried as a field of
the modelled file (the hash of the file's bytes, abstracted from the
byte stream), and fallible operations return `Except`.  Go's standard
string functions (`strings.Split` on a one-character separator,
`strings.TrimSpace`, `path.Ext`, `path.Clean`, decimal formatting) are
modelled by structurally recursive functions over the character list of
a string so that all definitions evaluate inside the kernel.
-/

namespace FsServe

/-- Decidable equality for `Except`, so that concrete runs of the
modelled fallible operations can be checked by `decide`. -/
instance {ε α : Type} [DecidableEq ε] [DecidableEq α] :
    DecidableEq (Except ε α) := fun a b =>
  match a, b with
  | .ok x, .ok y =>
    if h : x = y then isTrue (by rw [h])
    else isFalse (by intro hc; cases hc; exact h rfl)
  | .error x, .error y =>
    if h : x = y then isTrue (by rw [h])
    else isFalse (by intro hc; cases hc; exact h rfl)
  | .ok _, .error _ => isFalse (by intro hc; cases hc)
  | .error _, .ok _ => isFalse (by intro hc; cases hc)

/-! ## String primitives (models of Go's strings / strconv functions) -/

/-- Split a character list at every occurrence of `sep`; always returns
at least one (possibly empty) segment, like Go's `strings.Split` with a
one-character separator. -/
def splitOnChar (sep : Char) : List Char → List (List Char)
  | [] => [[]]
  | c :: rest =>
    let r := splitOnChar sep rest
    if c = sep then [] :: r
    else
      match r with
      | s :: ss => (c :: s) :: ss
      | [] => [[c]]

/-- ASCII whitespace recognised by `strings.TrimSpace` (restricted to
the characters that occur in HTTP headers and addresses). -/
def isSpaceChar (c : Char) : Bool :=
  c = ' ' || c = '\t' || c = '\n' || c = '\r'

/-- Trim whitespace from both ends of a character list
(`strings.TrimSpace`). -/
def trimChars (l : List Char) : List Char :=
  ((l.dropWhile isSpaceChar).reverse.dropWhile isSpaceChar).reverse

/-- `strings.Split` on a one-character separator. -/
def strSplit (s : String) (sep : Char) : List String :=
  (splitOnChar sep s.data).map (fun l => ⟨l⟩)

/-- `strings.TrimSpace`. -/
def strTrim (s : String) : String := ⟨trimChars s.data⟩

/-- The numeric value of an ASCII digit, none for other characters. -/
def digitVal (c : Char) : Option Nat :=
  if c.toNat ≥ 48 && c.toNat ≤ 57 then some (c.toNat - 48) else none

/-- Accumulate a decimal number from a character list; none when the
list is empty or contains a non-digit. -/
def digitsToNat : List Char → Option Nat → Option Nat
  | [], acc => acc
  | c :: rest, acc =>
    match digitVal c, acc with
    | some d, some a => digitsToNat rest (some (a * 10 + d))
    | some d, none => digitsToNat rest (some d)
    | none, _ => none

/-- Parse a non-empty all-digit string as a decimal natural number. -/
def parseNatStr (s : String) : Option Nat := digitsToNat s.data none

/-- The ASCII digit character for `n < 10`. -/
def digitChar (n : Nat) : Char := Char.ofNat (48 + n)

/-- Decimal digits of `n`, with explicit fuel for structural recursion
(fuel `n + 1` always suffices). -/
def natToChars (fuel n : Nat) : List Char :=
  match fuel with
  | 0 => []
  | fuel + 1 =>
    if n < 10 then [digitChar n]
    else natToChars fuel (n / 10) ++ [digitChar (n % 10)]

/-- Decimal rendering of a natural number (Go's `strconv.Itoa` for
non-negative values). -/
def natToStr (n : Nat) : String := ⟨natToChars (n + 1) n⟩

/-- Join strings with `/` between them. -/
def joinSlash : List String → String
  | [] => ""
  | [s] => s
  | s :: rest => s ++ "/" ++ joinSlash rest

/-- Go's `path.Clean`: drop empty and `.` elements, resolve `..`
against preceding elements (keeping leading `..` for relative paths,
dropping them at the root for rooted paths); empty results become `.`. -/
def pathClean (p : String) : String :=
  if p = "" then "."
  else
    let rooted := p.front = '/'
    let comps := (strSplit p '/').filter (fun c => c ≠ "" && c ≠ ".")
    let out := (comps.foldl (fun acc c =>
        if c = ".." then
          match acc with
          | [] => if rooted then [] else [".."]
          | a :: rest => if a = ".." then c :: acc else rest
        else c :: acc) []).reverse
    let s := joinSlash out
    if rooted then "/" ++ s else if s = "" then "." else s

/-- Go's `path.Ext`: the suffix of the last slash-separated element
beginning at its final dot, empty when that element has no dot. -/
def pathExt (p : String) : String :=
  let base := (strSplit p '/').getLastD ""
  let parts := strSplit base '.'
  if parts.length ≤ 1 then "" else "." ++ parts.getLastD ""

/-! ## Filesystem model -/

/-- A file in the blob store / content dir, as observed by `fs.Stat`:
directory flag, size and modification time. -/
structure Blob where
  isDir : Bool
  size : Int
  mtime : Int
deriving Repr, DecidableEq

/-- A source file offered to the publisher.  `digest` is the unpadded
base64url BLAKE2b-512 digest of the file's bytes (`Tree.hashFile` in
`tree.go`), carried as data since the byte stream itself is abstracted. -/
structure SrcFile where
  isDir : Bool
  size : Int
  mtime : Int
  digest : String
deriving Repr, DecidableEq

/-- The blob store: file name (hash) to stat info. -/
abbrev BlobStore := List (String × Blob)

/-- The source filesystem: path to stat info and digest. -/
abbrev SrcFS := List (String × SrcFile)

/-- Association-list lookup (first binding wins), modelling a filesystem
or map lookup by name. -/
def lookupA {α : Type} (l : List (String × α)) (k : String) : Option α :=
  (l.find? (fun p => p.1 = k)).map Prod.snd

/-- Association-list update: replace the binding for `k` if present,
else append it. -/
def updateA {α : Type} (l : List (String × α)) (k : String) (v : α) :
    List (String × α) :=
  if l.any (fun p => p.1 = k) then
    l.map (fun p => if p.1 = k then (k, v) else p)
  else
    l ++ [(k, v)]

/-- Association-list removal of every binding for `k` (modelling
`kfs.RemoveAll`, which is idempotent). -/
def removeA {α : Type} (l : List (String × α)) (k : String) :
    List (String × α) :=
  l.filter (fun p => ¬(p.1 = k))

/-- An encoded (pre-compressed) alternate of a content record:
content-coding token and blob hash (`EncodedContent` in `treedb.go`). -/
structure EncodedContent where
  code : String
  hash : String
deriving Repr, DecidableEq

/-- A content record: primary blob hash, content type, ordered encoded
alternates (`ContentConfig` in `treedb.go`). -/
structure ContentConfig where
  hash : String
  contentType : String
  encoded : List EncodedContent
deriving Repr, DecidableEq

/-! ## Tree DB model (treedbmodel.go, part_003) -/

/-- The tree database contents: logical name to content record. -/
abbrev TreeDb := List (String × ContentConfig)

/-- `contentExists` of `treedbmodel.go` (lines 107-119): true iff some
record references `hash` as its primary hash, or some encoded row
references `hash`. -/
def contentExists (db : TreeDb) (hash : String) : Bool :=
  db.any (fun p => p.2.hash = hash) ||
    db.any (fun p => p.2.encoded.any (fun e => e.hash = hash))

/-- Batch size used by the tree DB iteration loops
(`sqliteTreeConfigBatchSize`). -/
def sqliteTreeConfigBatchSize : Nat := 32

/-- `IterateGC` of the SQLite tree DB (`part_003` lines 277-304): list GC
candidates in batches of 32; for each, check `contentExists`; when it is
false invoke the callback; dequeue each listed entry unconditionally;
stop when a batch comes back shorter than the batch size.  The model
returns the list of hashes for which the callback was invoked, paired
with the queue remaining after the run (each processed entry is
dequeued, so the remainder is the unlisted tail). -/
def iterateGC (db : TreeDb) (gc : List String) : List String × List String :=
  if gc.isEmpty then ([], gc)
  else
    let batch := gc.take sqliteTreeConfigBatchSize
    let called := batch.filter (fun h => ¬ contentExists db h)
    let rest := gc.drop sqliteTreeConfigBatchSize
    if batch.length < sqliteTreeConfigBatchSize then (called, rest)
    else
      let (called2, rest2) := iterateGC db rest
      (called ++ called2, rest2)
termination_by gc.length
decreasing_by
  simp only [List.length_drop, sqliteTreeConfigBatchSize]
  have hne : gc ≠ [] := by simpa [List.isEmpty_iff] using (by assumption : ¬ gc.isEmpty = true)
  have : 0 < gc.length := List.length_pos.mpr hne
  omega

/-! ## Encoding negotiation over content records (part_008) -/

/-- Parse an `Accept-Encoding` header into the accepted tokens: if the
trimmed header is empty there are none, else split on commas, cut each
directive at the first `;` (dropping `;q=...` parameters) and trim
(`detectEncoding` in `part_008` lines 158-165 and `serve.go` lines
175-182). -/
def parseAcceptEncoding (accept : String) : List String :=
  if strTrim accept = "" then []
  else (strSplit accept ',').map (fun d => strTrim ((strSplit d ';').headD ""))

/-- The loop of `detectEncoding` over a record's encodings (`part_008`
lines 166-173): return the hash and code of the first encoded alternate
whose code is among the accepted tokens. -/
def detectEncodingLoop (tokens : List String) :
    List EncodedContent → Option (String × String)
  | [] => none
  | e :: rest =>
    if tokens.contains e.code then some (e.hash, e.code)
    else detectEncodingLoop tokens rest

/-- `detectEncoding` of `part_008` (lines 157-174): negotiate the served
encoding for a resolved content record; fall back to the primary hash
with the empty coding when nothing matches. -/
def detectEncoding (reqAcceptEncoding : String) (cfg : ContentConfig) :
    String × String :=
  match detectEncodingLoop (parseAcceptEncoding reqAcceptEncoding) cfg.encoded with
  | some r => r
  | none => (cfg.hash, "")

/-- The claim's wording of encoding negotiation: parse `Accept-Encoding`
into a token set, scan the record's encodings in stored order, select
the first whose code is in the set, else the primary (identity) blob. -/
def detectEncodingClaim (reqAcceptEncoding : String) (cfg : ContentConfig) :
    String × String :=
  let tokens := parseAcceptEncoding reqAcceptEncoding
  match cfg.encoded.find? (fun e => tokens.contains e.code) with
  | some e => (e.hash, e.code)
  | none => (cfg.hash, "")

/-! ## Content type resolution -/

/-- Fallback content type (`defaultContentType` in `serve.go`). -/
def defaultContentTypeStr : String := "application/octet-stream"

/-- The content-type computation inlined in `getContentFilename`
(`part_008` lines 193-201): the record's type when non-empty, else the
MIME registry's type for the extension of the requested path, else
`application/octet-stream`.  The process-wide MIME registry is external
and passed as a function (empty string means no registered type). -/
def contentTypePart008 (mimeByExt : String → String)
    (cfgType : String) (upath : String) : String :=
  if cfgType ≠ "" then cfgType
  else
    let c := mimeByExt (pathExt upath)
    if c ≠ "" then c else defaultContentTypeStr

/-- `detectContentType` of `serve.go` (lines 223-234): the MIME
registry's type for the path's extension, else the route's fallback
content type, else `application/octet-stream`. -/
def detectContentType (mimeByExt : String → String)
    (name : String) (fallbackContentType : String) : String :=
  let ctype := mimeByExt (pathExt name)
  if ctype ≠ "" then ctype
  else if fallbackContentType ≠ "" then fallbackContentType
  else defaultContentTypeStr

/-- The claim's content-type chain: the first non-empty value among the
record's content type, the MIME registry's type for the path extension,
the route's default content type, and `application/octet-stream`. -/
def contentTypeChain (recordType mimeType routeDefault : String) : String :=
  if recordType ≠ "" then recordType
  else if mimeType ≠ "" then mimeType
  else if routeDefault ≠ "" then routeDefault
  else defaultContentTypeStr

/-! ## Response headers and conditional requests (serve.go) -/

/-- `fileConfig` of `serve.go` (lines 125-132): the resolved serve plan
for one request. -/
structure FileCfg where
  path : String
  basename : String
  ctype : String
  encoding : String
  checksum : String
  tag : String
deriving Repr, DecidableEq

/-- `calcWeakETag` of `serve.go` (line 285). -/
def calcWeakETag (tag : String) : String := "W/\"" ++ tag ++ "\""

/-- `calcStrongETag` of `serve.go` (line 289). -/
def calcStrongETag (tag : String) : String := "\"" ++ tag ++ "\""

/-- The response headers relevant to `writeResHeaders`, plus the status
code written (none while unset). -/
structure ResHeaders where
  vary : List String
  cacheControl : Option String
  etag : Option String
  contentEncoding : Option String
  contentType : Option String
  statusWritten : Option Nat
deriving Repr, DecidableEq

/-- The trailing content-header writes of `writeResHeaders` (`serve.go`
lines 333-337): `Content-Encoding` when the plan has a non-identity
encoding, then `Content-Type`. -/
def finishHeaders (h : ResHeaders) (cfg : FileCfg) : ResHeaders :=
  let h1 := if cfg.encoding ≠ "" then { h with contentEncoding := some cfg.encoding } else h
  { h1 with contentType := some cfg.ctype }

/-- `writeResHeaders` of `serve.go` (lines 293-338): always add
`Vary: Accept-Encoding`; when the route has a cache-control directive
and the plan has a non-empty stat tag, compute the weak ETag (and the
strong ETag when a checksum is known), scan the comma-split, trimmed
`If-None-Match` elements, and on the first non-empty element equal to
the strong or weak ETag reply 304 with that element as `ETag` and no
content headers; otherwise emit the ETag (strong preferred) and the
content headers.  Returns the headers and whether a 304 was written. -/
def writeResHeaders (ifNoneMatch : String) (cfg : FileCfg)
    (cachecontrol : String) : ResHeaders × Bool :=
  let h0 : ResHeaders := ⟨["Accept-Encoding"], none, none, none, none, none⟩
  if cachecontrol ≠ "" then
    let h1 := { h0 with cacheControl := some cachecontrol }
    if cfg.tag ≠ "" then
      let weakETag := calcWeakETag cfg.tag
      let strongETag := if cfg.checksum ≠ "" then calcStrongETag cfg.checksum else ""
      let m := strTrim ifNoneMatch
      let matched : Option String :=
        if m ≠ "" then
          ((strSplit m ',').map strTrim).find?
            (fun t => t ≠ "" && (t = strongETag || t = weakETag))
        else none
      match matched with
      | some t => ({ h1 with etag := some t, statusWritten := some 304 }, true)
      | none =>
        let h2 := { h1 with
          etag := some (if strongETag ≠ "" then strongETag else weakETag) }
        (finishHeaders h2 cfg, false)
    else (finishHeaders h1 cfg, false)
  else (finishHeaders h0 cfg, false)

/-! ## Real IP extraction (serve.go lines 513-551) -/

/-- An IPv4 address by octets (the model covers the IPv4 fragment of
Go's `netip.Addr`). -/
structure IPv4 where
  o1 : Nat
  o2 : Nat
  o3 : Nat
  o4 : Nat
deriving Repr, DecidableEq

/-- The 32-bit value of an IPv4 address. -/
def IPv4.toNat (ip : IPv4) : Nat :=
  ((ip.o1 * 256 + ip.o2) * 256 + ip.o3) * 256 + ip.o4

/-- A trusted-proxy CIDR block (`netip.Prefix` over IPv4). -/
structure Cidr where
  addr : IPv4
  bits : Nat
deriving Repr, DecidableEq

/-- `netip.Prefix.Contains` for IPv4: the leading `bits` bits agree. -/
def cidrContains (p : Cidr) (ip : IPv4) : Bool :=
  ip.toNat / 2 ^ (32 - p.bits) = p.addr.toNat / 2 ^ (32 - p.bits)

/-- `ipnetsContain` of `serve.go` (lines 544-551). -/
def ipnetsContain (ip : IPv4) (ipnet : List Cidr) : Bool :=
  ipnet.any (fun p => cidrContains p ip)

/-- Parse one dotted-decimal field as `netip` does: decimal digits,
value at most 255, no leading zero. -/
def parseOctet (s : String) : Option Nat :=
  match parseNatStr s with
  | none => none
  | some n =>
    if n > 255 then none
    else if s.length > 1 && s.front = '0' then none
    else some n

/-- `netip.ParseAddr` restricted to IPv4 dotted-decimal form. -/
def parseIPv4 (s : String) : Option IPv4 :=
  match strSplit s '.' with
  | [a, b, c, d] =>
    match parseOctet a, parseOctet b, parseOctet c, parseOctet d with
    | some na, some nb, some nc, some nd => some ⟨na, nb, nc, nd⟩
    | _, _, _, _ => none
  | _ => none

/-- `netip.Addr.String` for IPv4. -/
def ipv4String (ip : IPv4) : String :=
  natToStr ip.o1 ++ "." ++ natToStr ip.o2 ++ "." ++ natToStr ip.o3
    ++ "." ++ natToStr ip.o4

/-- `netip.ParseAddrPort` restricted to IPv4: `host:port` with a
decimal port of at most 65535. -/
def parseAddrPort (s : String) : Option IPv4 :=
  match strSplit s ':' with
  | [host, port] =>
    match parseNatStr port with
    | some p => if p ≤ 65535 then parseIPv4 host else none
    | none => none
  | _ => none

/-- The right-to-left `X-Forwarded-For` walk of `getRealIP` (`serve.go`
lines 528-541): the list argument is the comma-split header reversed;
`prev` starts at the remote address; an unparsable entry yields the
remote address string, the first untrusted entry wins, and when the list
is exhausted the last parsed (leftmost) entry is returned. -/
def xffWalk (proxies : List Cidr) (remoteStr : String) :
    List String → IPv4 → String
  | [], prev => ipv4String prev
  | s :: rest, _prev =>
    match parseIPv4 (strTrim s) with
    | none => remoteStr
    | some ip =>
      if ¬ ipnetsContain ip proxies then ipv4String ip
      else xffWalk proxies remoteStr rest ip

/-- `getRealIP` of `serve.go` (lines 513-542): parse `RemoteAddr` (empty
result when unparsable); when the remote address is outside every
trusted-proxy CIDR, or the `X-Forwarded-For` header is absent (empty),
return the remote address; otherwise walk the comma-split header from
right to left. -/
def getRealIP (remoteAddr : String) (xffHeader : String)
    (proxies : List Cidr) : String :=
  match parseAddrPort (strTrim remoteAddr) with
  | none => ""
  | some remoteip =>
    if ¬ ipnetsContain remoteip proxies then ipv4String remoteip
    else if xffHeader = "" then ipv4String remoteip
    else xffWalk proxies (ipv4String remoteip) (strSplit xffHeader ',').reverse remoteip

/-! ## File-based encoding negotiation (serve.go lines 174-217) -/

/-- `Encoding` of `serve.go` (lines 118-123) after `parseRoutes` has
compiled the `Match` regex for a directory route: the compiled regex is
an abstract predicate on names, present exactly when `Match` was
non-empty. -/
structure EncodingRoute where
  code : String
  matchR : Option (String → Bool)
  ext : String

/-- Error kinds surfaced by the serve path. -/
inductive ServeErr where
  | notFound
  | invalidReq
deriving Repr, DecidableEq

/-- The loop of the file-based `detectEncoding` (`serve.go` lines
183-205): for each configured encoding whose code is accepted and whose
match predicate (when present) accepts the name, serve `name + ext`
when that file exists and is not a directory. -/
def detectEncLoop (fs : BlobStore) (tokens : List String) (name : String) :
    List EncodingRoute → Option (String × Blob × String)
  | [] => none
  | e :: rest =>
    if tokens.contains e.code then
      if (match e.matchR with | some p => p name | none => true) then
        match lookupA fs (name ++ e.ext) with
        | some st =>
          if st.isDir then detectEncLoop fs tokens name rest
          else some (name ++ e.ext, st, e.code)
        | none => detectEncLoop fs tokens name rest
      else detectEncLoop fs tokens name rest
    else detectEncLoop fs tokens name rest

/-- The file-based `detectEncoding` of `serve.go` (lines 174-217):
negotiate a pre-compressed alternate, falling back to the identity file
(404 when absent, 400 when a directory). -/
def detectEncodingFile (fs : BlobStore) (encodings : List EncodingRoute)
    (accept name : String) : Except ServeErr (String × Blob × String) :=
  match detectEncLoop fs (parseAcceptEncoding accept) name encodings with
  | some r => .ok r
  | none =>
    match lookupA fs name with
    | none => .error .notFound
    | some st => if st.isDir then .error .invalidReq else .ok (name, st, "")

/-! ## Tree DB repository error propagation (treedbmodel.go) -/

/-- Outcomes of the individual steps performed inside a tree DB
`Insert`/`Update`: queuing GC candidates, deleting the old encoded rows,
writing the content row, and bulk-inserting the replacement encoded
rows.  Errors are abstract tokens. -/
structure RepoStepEnv where
  queueGCRes : Except Nat Unit
  delEncodedRes : Except Nat Unit
  insertCtRes : Except Nat Unit
  updCtRes : Except Nat Unit
  addEncodedRes : Except Nat Unit
deriving Repr

/-- `Insert` of `treedbmodel.go` (lines 196-210): queue GC candidates,
delete old encoded rows, insert the content row, bulk-insert the new
encoded rows; every failing step propagates its error. -/
def repoInsert (env : RepoStepEnv) : Except Nat Unit :=
  match env.queueGCRes with
  | .error e => .error e
  | .ok _ =>
    match env.delEncodedRes with
    | .error e => .error e
    | .ok _ =>
      match env.insertCtRes with
      | .error e => .error e
      | .ok _ =>
        match env.addEncodedRes with
        | .error e => .error e
        | .ok _ => .ok ()

/-- `Update` of `treedbmodel.go` (lines 212-229).  Note the final step:
the source reads `if err := r.addEncoded(ctx, m, enc); err != nil
\x7b return nil \x7d`, discarding the error of the bulk insert of the
replacement encoded rows. -/
def repoUpdate (env : RepoStepEnv) : Except Nat Unit :=
  match env.queueGCRes with
  | .error e => .error e
  | .ok _ =>
    match env.delEncodedRes with
    | .error e => .error e
    | .ok _ =>
      match env.updCtRes with
      | .error e => .error e
      | .ok _ =>
        match env.addEncodedRes with
        | .error _ => .ok ()
        | .ok _ => .ok ()

/-! ## Publisher: blob ensure, add, rm (part_006 / tree.go) -/

/-- Error kinds surfaced by the publisher. -/
inductive TreeErr where
  | invalidArg
  | notFound
  | srcIsDir
  | dstIsDir
deriving Repr, DecidableEq

/-- The result of `checkAndAddFileFS`: the returned hash (or error), the
blob store afterwards, and whether the call hashed the source, copied
bytes into the store, or touched a blob's modification time. -/
structure CAAOut where
  res : Except TreeErr String
  blobs : BlobStore
  hashed : Bool
  copied : Bool
  touched : Bool
deriving DecidableEq

/-- `kfs.Chtimes` on a blob: set the modification time of the named
blob (no effect on other entries). -/
def touchMtime (blobs : BlobStore) (h : String) (t : Int) : BlobStore :=
  blobs.map (fun p => if p.1 = h then (p.1, { p.2 with mtime := t }) else p)

/-- `Tree.copyFile` (`part_006` lines 399-422): create or truncate the
blob named by the source's digest and copy the source bytes; the new
blob is a regular file of the source's size whose modification time is
the time of the copy. -/
def caaCopy (now : Int) (blobs : BlobStore) (sf : SrcFile) : CAAOut :=
  ⟨.ok sf.digest, updateA blobs sf.digest ⟨false, sf.size, now⟩, true, true, false⟩

/-- The part of `checkAndAddFileFS` after `hashFile` (`part_006` lines
335-376): touch-and-return when the digest equals the provided hash and
the sizes matched earlier; otherwise return the digest without copying
when an up-to-date blob of that name exists (error when a directory
occupies the name); otherwise copy. -/
def caaAfterHash (now : Int) (blobs : BlobStore) (existingHash : String)
    (sf : SrcFile) (existingMatchesSize : Bool) : CAAOut :=
  if existingHash ≠ "" && sf.digest = existingHash && existingMatchesSize then
    ⟨.ok existingHash, touchMtime blobs existingHash sf.mtime, true, false, true⟩
  else
    match lookupA blobs sf.digest with
    | some dinfo =>
      if dinfo.isDir then ⟨.error .dstIsDir, blobs, true, false, false⟩
      else if dinfo.size = sf.size && ¬(dinfo.mtime < sf.mtime) then
        ⟨.ok sf.digest, blobs, true, false, false⟩
      else caaCopy now blobs sf
    | none => caaCopy now blobs sf

/-- `Tree.checkAndAddFileFS` (`part_006` lines 303-377): stat the source
(error when missing or a directory); when a prior hash is provided and
its blob is a non-directory of equal size and not-older modification
time, return the prior hash without hashing; else hash the source and
continue in `caaAfterHash`, remembering whether the prior blob matched
the size.  `hashFile` is modelled by reading the `digest` field of the
source file. -/
def checkAndAddFileFS (now : Int) (blobs : BlobStore) (srcs : SrcFS)
    (existingHash : String) (srcName : String) : CAAOut :=
  match lookupA srcs srcName with
  | none => ⟨.error .notFound, blobs, false, false, false⟩
  | some srcInfo =>
    if srcInfo.isDir then ⟨.error .srcIsDir, blobs, false, false, false⟩
    else
      match (if existingHash = "" then none else lookupA blobs existingHash) with
      | some einfo =>
        if ¬einfo.isDir && einfo.size = srcInfo.size then
          if ¬(einfo.mtime < srcInfo.mtime) then
            ⟨.ok existingHash, blobs, false, false, false⟩
          else caaAfterHash now blobs existingHash srcInfo true
        else caaAfterHash now blobs existingHash srcInfo false
      | none => caaAfterHash now blobs existingHash srcInfo false

/-- Whether a non-directory blob named `h` exists with the source's size
and a modification time not before the source's (the reuse condition of
the claim). -/
def blobOkFor (blobs : BlobStore) (h : String) (sf : SrcFile) : Bool :=
  match lookupA blobs h with
  | some b => ¬b.isDir && b.size = sf.size && ¬(b.mtime < sf.mtime)
  | none => false

/-- Whether a non-directory blob named `h` exists with the source's size
(the claim's "sizes matched earlier"). -/
def sizeMatchedAt (blobs : BlobStore) (h : String) (sf : SrcFile) : Bool :=
  match lookupA blobs h with
  | some b => ¬b.isDir && b.size = sf.size
  | none => false

/-- The claim's four-case description of the blob-ensure decision:
(1) prior blob up to date: return the prior hash without rehashing;
(2) digest equals the prior hash and sizes matched: touch the blob's
modification time and return the digest without copying; (3) an
up-to-date blob named by the digest exists: return the digest without
copying; (4) otherwise copy the source under the digest name. -/
def caaClaim (now : Int) (blobs : BlobStore) (existingHash : String)
    (sf : SrcFile) : CAAOut :=
  if existingHash ≠ "" && blobOkFor blobs existingHash sf then
    ⟨.ok existingHash, blobs, false, false, false⟩
  else if existingHash ≠ "" && sf.digest = existingHash
      && sizeMatchedAt blobs existingHash sf then
    ⟨.ok sf.digest, touchMtime blobs sf.digest sf.mtime, true, false, true⟩
  else if blobOkFor blobs sf.digest sf then
    ⟨.ok sf.digest, blobs, true, false, false⟩
  else caaCopy now blobs sf

/-- `equalCfg` of `part_006` (lines 277-293): hashes equal, content
types equal, encodings equal element-wise in the same order. -/
def equalCfg (a b : ContentConfig) : Bool :=
  if a.hash ≠ b.hash then false
  else if a.contentType ≠ b.contentType then false
  else if a.encoded.length ≠ b.encoded.length then false
  else (a.encoded.zip b.encoded).all (fun p => p.1 = p.2)

/-- The per-encoding loop of `Add` (`part_006` lines 248-257): ensure
each encoded file's blob, passing the prior hash recorded for its code;
collect the encoded entries in order and whether any copy happened. -/
def addEncodedFold (now : Int) (blobs : BlobStore) (srcs : SrcFS)
    (codeToHash : List (String × String)) :
    List (String × String) → Except TreeErr (BlobStore × List EncodedContent × Bool)
  | [] => .ok (blobs, [], false)
  | (code, name) :: rest =>
    let o := checkAndAddFileFS now blobs srcs ((lookupA codeToHash code).getD "") name
    match o.res with
    | .error e => .error e
    | .ok h =>
      match addEncodedFold now o.blobs srcs codeToHash rest with
      | .error e => .error e
      | .ok (b2, l, c) => .ok (b2, ⟨code, h⟩ :: l, o.copied || c)

/-- The result of `Tree.Add`: tree DB and blob store afterwards, the
record that was built, whether the DB was written, and whether any
source bytes were copied into the blob store. -/
structure AddOut where
  db : TreeDb
  blobs : BlobStore
  cfg : ContentConfig
  dbWrote : Bool
  copied : Bool
deriving DecidableEq

/-- `Tree.Add` (`part_006` lines 213-275): reject an empty dst or an
empty encoding code; clean the dst; read the prior record (absent on
not-found) and index its encoded hashes by code; ensure the primary
blob passing the prior primary hash, then each encoded blob passing the
prior hash for its code; when the rebuilt record equals the prior one,
skip the DB write, else insert or update the record.  (`checkAndAddFile`
splits the source path and re-roots the filesystem; the model keys the
source filesystem by the full path.) -/
def addOp (now : Int) (db : TreeDb) (blobs : BlobStore) (srcs : SrcFS)
    (dst ctype src : String) (encoded : List (String × String)) :
    Except TreeErr AddOut :=
  if dst = "" then .error .invalidArg
  else if encoded.any (fun e => e.1 = "") then .error .invalidArg
  else
    let dstc := pathClean dst
    let existingCfg := lookupA db dstc
    let existingHash := (existingCfg.map ContentConfig.hash).getD ""
    let codeToHash := ((existingCfg.map ContentConfig.encoded).getD []).foldl
        (fun acc e => updateA acc e.code e.hash) []
    let o0 := checkAndAddFileFS now blobs srcs existingHash src
    match o0.res with
    | .error e => .error e
    | .ok h0 =>
      match addEncodedFold now o0.blobs srcs codeToHash encoded with
      | .error e => .error e
      | .ok (blobs1, encList, anyCopied) =>
        let cfg : ContentConfig := ⟨h0, ctype, encList⟩
        match existingCfg with
        | some priorCfg =>
          if equalCfg cfg priorCfg then
            .ok ⟨db, blobs1, cfg, false, o0.copied || anyCopied⟩
          else
            .ok ⟨updateA db dstc cfg, blobs1, cfg, true, o0.copied || anyCopied⟩
        | none => .ok ⟨updateA db dstc cfg, blobs1, cfg, true, o0.copied || anyCopied⟩

/-! ## Publisher: remove (part_006 lines 424-459) -/

/-- The full publisher state: tree DB, blob store and GC candidate
queue.  The publisher of `part_006` never consults the queue; it is
carried to state the referenced-blob invariant. -/
structure PubState where
  db : TreeDb
  blobs : BlobStore
  gc : List String
deriving Repr, DecidableEq

/-- `Tree.rmContent` (`part_006` lines 436-459): remove each encoded
blob from the content dir, remove the primary blob, then remove the
record from the tree DB.  The GC queue is not consulted or written. -/
def rmContent (st : PubState) (name : String) (cfg : ContentConfig) : PubState :=
  let blobs1 := cfg.encoded.foldl (fun bs e => removeA bs e.hash) st.blobs
  let blobs2 := removeA blobs1 cfg.hash
  ⟨removeA st.db name, blobs2, st.gc⟩

/-- `Tree.Rm` (`part_006` lines 424-434): reject an empty name, clean
it, read the record (error when absent), and remove it via
`rmContent`. -/
def rmOp (st : PubState) (name : String) : Except TreeErr PubState :=
  if name = "" then .error .invalidArg
  else
    let n := pathClean name
    match lookupA st.db n with
    | none => .error .notFound
    | some cfg => .ok (rmContent st n cfg)

/-- The spec's referenced-blob invariant: every hash referenced by any
record (primary or per-encoding) names a blob currently present in the
blob store, unless that hash is in the GC queue. -/
def refsLive (st : PubState) : Bool :=
  st.db.all (fun p =>
    ((lookupA st.blobs p.2.hash).isSome || st.gc.contains p.2.hash) &&
    p.2.encoded.all (fun e =>
      (lookupA st.blobs e.hash).isSome || st.gc.contains e.hash))

/-! ## Claim theorems, batch 1 -/

/-- C4: for every GC-queue state, `IterateGC` visits each queued hash,
invokes the callback exactly for the hashes on which `contentExists`
returns false, dequeues every entry unconditionally, and leaves the GC
queue empty after a completed run. -/
theorem iterateGC_visits_and_drains (db : TreeDb) (gc : List String) :
    iterateGC db gc = (gc.filter (fun h => ¬ contentExists db h), []) := by
  have main : ∀ (n : Nat) (q : List String), q.length ≤ n →
      iterateGC db q = (q.filter (fun h => ¬ contentExists db h), []) := by
    intro n
    induction n with
    | zero =>
      intro q hq
      have hq0 : q = [] := List.length_eq_zero.mp (Nat.le_zero.mp hq)
      subst hq0
      rw [iterateGC]
      simp
    | succ n ih =>
      intro q hq
      rw [iterateGC]
      by_cases hemp : q.isEmpty
      · have hq0 : q = [] := List.isEmpty_iff.mp hemp
        subst hq0
        simp
      · simp only [hemp, Bool.false_eq_true, if_false]
        by_cases hlt : (q.take sqliteTreeConfigBatchSize).length < sqliteTreeConfigBatchSize
        · have hlen : q.length < sqliteTreeConfigBatchSize := by
            simp only [List.length_take] at hlt
            omega
          simp only [hlt, if_true]
          rw [List.take_of_length_le (le_of_lt hlen), List.drop_eq_nil_of_le (le_of_lt hlen)]
        · have h32 : sqliteTreeConfigBatchSize ≤ q.length := by
            by_contra hcon
            push_neg at hcon
            apply hlt
            simp only [List.length_take]
            omega
          have hrec := ih (q.drop sqliteTreeConfigBatchSize) (by
            simp only [List.length_drop]
            have hpos : 0 < sqliteTreeConfigBatchSize := by
              simp [sqliteTreeConfigBatchSize]
            omega)
          simp only [hlt, if_false, hrec]
          rw [← List.filter_append, List.take_append_drop]
  exact main gc.length gc le_rfl

theorem detectEncodingLoop_eq_find (tokens : List String) (l : List EncodedContent) :
    detectEncodingLoop tokens l =
      (l.find? (fun e => tokens.contains e.code)).map (fun e => (e.hash, e.code)) := by
  induction l with
  | nil => rfl
  | cons e rest ih =>
    cases hc : tokens.contains e.code with
    | true =>
      simp only [detectEncodingLoop, hc, if_true, List.find?_cons]
      rfl
    | false =>
      simp only [detectEncodingLoop, hc, Bool.false_eq_true, if_false, List.find?_cons, ih]

/-- C5: the served encoding for a resolved content record is chosen by
parsing `Accept-Encoding` into a token set (split on commas, drop
`;q=...` parameters, trim), scanning the record's encodings in stored
order and selecting the first whose code is in the set; the primary
(identity) blob is selected when no encoding matches. -/
theorem detectEncoding_matches_claim (accept : String) (cfg : ContentConfig) :
    detectEncoding accept cfg = detectEncodingClaim accept cfg := by
  simp only [detectEncoding, detectEncodingClaim]
  rw [detectEncodingLoop_eq_find]
  cases hfind : cfg.encoded.find? (fun e => (parseAcceptEncoding accept).contains e.code) <;> rfl

/-- C8: the response content type is the first non-empty value of the
claim's chain.  The record-serving engine (`part_008`, whose routes have
no default content type) realises the chain with an empty route default;
the file-serving engine (`serve.go`, which has no content records)
realises it with an empty record component. -/
theorem contentType_first_nonempty_chain (mimeByExt : String → String)
    (cfgType upath fallback : String) :
    contentTypePart008 mimeByExt cfgType upath
        = contentTypeChain cfgType (mimeByExt (pathExt upath)) "" ∧
    detectContentType mimeByExt upath fallback
        = contentTypeChain "" (mimeByExt (pathExt upath)) fallback := by
  constructor
  · unfold contentTypePart008 contentTypeChain
    by_cases h1 : cfgType ≠ "" <;> by_cases h2 : mimeByExt (pathExt upath) ≠ "" <;>
      simp [h1, h2]
  · unfold detectContentType contentTypeChain
    by_cases h2 : mimeByExt (pathExt upath) ≠ "" <;> by_cases h3 : fallback ≠ "" <;>
      simp [h2, h3]

/-- C9: evaluation of the tree DB mutations at a failing step.  When the
bulk insert of the replacement encodings fails during `Update`, the
source returns nil, so `Update` reports success after a failed step
(divergence from the claim); the identical step in `Insert` propagates
its error. -/
theorem repoUpdate_swallows_addEncoded_error :
    repoUpdate ⟨.ok (), .ok (), .ok (), .ok (), .error 1⟩ = .ok () ∧
    repoInsert ⟨.ok (), .ok (), .ok (), .ok (), .error 1⟩ = .error 1 := by
  exact ⟨rfl, rfl⟩

def c2StateBefore : PubState :=
  ⟨[("a", ⟨"H", "", []⟩), ("b", ⟨"H", "", []⟩)], [("H", ⟨false, 1, 0⟩)], []⟩

def c2StateAfter : PubState := ⟨[("b", ⟨"H", "", []⟩)], [], []⟩

/-- C2: evaluation of `Rm` at the failing input.  With two records "a"
and "b" both referencing blob `H`, the referenced-blob invariant holds,
`Rm "a"` succeeds, and afterwards record "b" references a blob that is
neither present in the blob store nor queued for GC: the publisher
deletes the record's blobs outright without consulting the GC queue. -/
theorem rm_shared_blob_breaks_referenced_invariant :
    refsLive c2StateBefore = true ∧
    rmOp c2StateBefore "a" = .ok c2StateAfter ∧
    refsLive c2StateAfter = false := by
  refine ⟨by decide, by decide, by decide⟩


/-! ## C7: real IP extraction -/

/-- The amended claim's description of the `X-Forwarded-For` walk: scan
the parsed entries right to left skipping trusted addresses; the first
untrusted address wins; when every entry is trusted the leftmost entry
is the real IP. -/
def xffRightWalkClaim (proxies : List Cidr) (r : IPv4) (ips : List IPv4) : String :=
  match ips.reverse.find? (fun ip => ! ipnetsContain ip proxies) with
  | some u => ipv4String u
  | none => ipv4String (ips.headD r)

theorem xffWalk_parsed (proxies : List Cidr) (rs : String)
    (ss : List String) (ips : List IPv4) (prev : IPv4)
    (h : ss.map (fun s => parseIPv4 (strTrim s)) = ips.map some) :
    xffWalk proxies rs ss prev =
      match ips.find? (fun ip => ! ipnetsContain ip proxies) with
      | some u => ipv4String u
      | none => ipv4String (ips.getLastD prev) := by
  induction ss generalizing ips prev with
  | nil =>
    have hnil : ips = [] := by
      cases ips with
      | nil => rfl
      | cons a l => simp at h
    subst hnil
    simp [xffWalk]
  | cons s rest ih =>
    cases ips with
    | nil => simp at h
    | cons ip ips' =>
      simp only [List.map_cons, List.cons.injEq] at h
      obtain ⟨h1, h2⟩ := h
      by_cases hc : ipnetsContain ip proxies
      · rw [show xffWalk proxies rs (s :: rest) prev = xffWalk proxies rs rest ip by
          simp [xffWalk, h1, hc]]
        rw [ih ips' ip h2]
        rw [List.find?_cons]
        simp only [hc, Bool.not_true]
        rw [List.getLastD_cons]
      · rw [show xffWalk proxies rs (s :: rest) prev = ipv4String ip by
          simp [xffWalk, h1, hc]]
        rw [List.find?_cons]
        simp only [hc, Bool.not_false]

/-- C7 (amended): when the remote address parses, (1) if it is outside
every trusted-proxy CIDR the real IP is the remote address; (2) if it is
trusted and there is no `X-Forwarded-For` header the real IP is the
remote address; (3) if it is trusted and the header's entries all parse,
the entries are walked right to left skipping trusted addresses, the
first untrusted address wins, and when every entry is trusted the
leftmost entry (not the remote address) is the real IP. -/
theorem getRealIP_matches_walk (remoteAddr xff : String) (proxies : List Cidr)
    (r : IPv4) (hparse : parseAddrPort (strTrim remoteAddr) = some r) :
    (ipnetsContain r proxies = false →
      getRealIP remoteAddr xff proxies = ipv4String r) ∧
    (ipnetsContain r proxies = true → xff = "" →
      getRealIP remoteAddr xff proxies = ipv4String r) ∧
    (∀ ips : List IPv4,
      ipnetsContain r proxies = true → xff ≠ "" →
      (strSplit xff ',').map (fun s => parseIPv4 (strTrim s)) = ips.map some →
      getRealIP remoteAddr xff proxies = xffRightWalkClaim proxies r ips) := by
  unfold getRealIP
  rw [hparse]
  refine ⟨?_, ?_, ?_⟩
  · intro hnc
    simp [hnc]
  · intro hc he
    simp [hc, he]
  · intro ips hc hne hmap
    have hrev : ((strSplit xff ',').reverse).map (fun s => parseIPv4 (strTrim s))
        = ips.reverse.map some := by
      rw [List.map_reverse, hmap, List.map_reverse]
    simp only [hc, Bool.not_true, Bool.false_eq_true, if_false, hne, if_neg hne]
    rw [xffWalk_parsed proxies _ _ ips.reverse r hrev]
    unfold xffRightWalkClaim
    cases hfind : ips.reverse.find? (fun ip => ! ipnetsContain ip proxies) with
    | some u => rfl
    | none =>
      have hlast : ips.reverse.getLastD r = ips.headD r := by
        rw [List.getLastD_eq_getLast?, List.getLast?_reverse]
        cases ips <;> simp
      rw [hlast]
      simp

theorem getRealIP_matches_walk_witness :
    getRealIP "10.0.0.2:1234" "172.16.0.2, 10.0.0.4, 10.0.0.3"
      [⟨⟨10, 0, 0, 0⟩, 8⟩] = "172.16.0.2" := by
  have h := (getRealIP_matches_walk "10.0.0.2:1234" "172.16.0.2, 10.0.0.4, 10.0.0.3"
      [⟨⟨10, 0, 0, 0⟩, 8⟩] ⟨10, 0, 0, 2⟩ (by decide)).2.2
      [⟨172, 16, 0, 2⟩, ⟨10, 0, 0, 4⟩, ⟨10, 0, 0, 3⟩] (by decide) (by decide) (by decide)
  exact h.trans (by decide)

/-- C7 counterexample: with a trusted remote address and an
`X-Forwarded-For` header whose every entry is trusted, the code returns
the leftmost header entry, not `RemoteAddr`'s IP as the claim states. -/
theorem getRealIP_all_trusted_counterexample :
    getRealIP "10.0.0.2:1234" "10.0.0.7" [⟨⟨10, 0, 0, 0⟩, 8⟩] = "10.0.0.7" ∧
    ¬ getRealIP "10.0.0.2:1234" "10.0.0.7" [⟨⟨10, 0, 0, 0⟩, 8⟩] = "10.0.0.2" :=
  ⟨by decide, by decide⟩


/-! ## C6: conditional requests -/

theorem calcWeakETag_ne_empty (t : String) : calcWeakETag t ≠ "" := by
  unfold calcWeakETag
  intro h
  have hlen := congrArg String.length h
  rw [String.length_append, String.length_append] at hlen
  have h3 : ("W/\"" : String).length = 3 := by decide
  have h1 : ("\"" : String).length = 1 := by decide
  have h0 : ("" : String).length = 0 := by decide
  omega

theorem calcStrongETag_ne_empty (t : String) : calcStrongETag t ≠ "" := by
  unfold calcStrongETag
  intro h
  have hlen := congrArg String.length h
  rw [String.length_append, String.length_append] at hlen
  have h1 : ("\"" : String).length = 1 := by decide
  have h0 : ("" : String).length = 0 := by decide
  omega

/-- C6 (amended): for every request on a route with a non-empty
`Cache-Control` whose selected blob has a non-empty stat tag, if the
`If-None-Match` header, split on commas with each element trimmed,
contains the strong or the weak ETag of the selected blob, the server
responds 304 Not Modified with `Vary: Accept-Encoding`, `Cache-Control`
and `ETag` retained, and with no `Content-Type` and no
`Content-Encoding` header. -/
theorem writeResHeaders_304_on_etag_match (ifNoneMatch : String) (cfg : FileCfg)
    (cachecontrol : String) (hcc : cachecontrol ≠ "") (htag : cfg.tag ≠ "")
    (hmatch :
      calcWeakETag cfg.tag ∈ (strSplit (strTrim ifNoneMatch) ',').map strTrim ∨
      (cfg.checksum ≠ "" ∧
        calcStrongETag cfg.checksum ∈ (strSplit (strTrim ifNoneMatch) ',').map strTrim)) :
    ∃ t, (t = calcStrongETag cfg.checksum ∨ t = calcWeakETag cfg.tag) ∧
      writeResHeaders ifNoneMatch cfg cachecontrol =
        (⟨["Accept-Encoding"], some cachecontrol, some t, none, none, some 304⟩, true) := by
  have hm : strTrim ifNoneMatch ≠ "" := by
    intro h0
    rw [h0] at hmatch
    have htags : (strSplit ("" : String) ',').map strTrim = [""] := by decide
    rw [htags] at hmatch
    rcases hmatch with hw | ⟨hcs, hs⟩
    · simp only [List.mem_singleton] at hw
      exact calcWeakETag_ne_empty cfg.tag hw
    · simp only [List.mem_singleton] at hs
      exact calcStrongETag_ne_empty cfg.checksum hs
  have hpred : ∃ x ∈ (strSplit (strTrim ifNoneMatch) ',').map strTrim,
      (x ≠ "" && (x = (if cfg.checksum ≠ "" then calcStrongETag cfg.checksum else "")
        || x = calcWeakETag cfg.tag)) = true := by
    rcases hmatch with hw | ⟨hcs, hs⟩
    · exact ⟨_, hw, by simp [calcWeakETag_ne_empty cfg.tag]⟩
    · refine ⟨_, hs, ?_⟩
      simp [hcs, calcStrongETag_ne_empty cfg.checksum]
  have hsome : (((strSplit (strTrim ifNoneMatch) ',').map strTrim).find?
      (fun t => t ≠ "" && (t = (if cfg.checksum ≠ "" then calcStrongETag cfg.checksum else "")
        || t = calcWeakETag cfg.tag))).isSome := by
    rw [List.find?_isSome]
    exact hpred
  obtain ⟨t, hfind⟩ := Option.isSome_iff_exists.mp hsome
  have hpt := List.find?_some hfind
  simp only [Bool.and_eq_true, Bool.or_eq_true, decide_eq_true_eq, ne_eq] at hpt
  obtain ⟨ht0, hor⟩ := hpt
  refine ⟨t, ?_, ?_⟩
  · rcases hor with hs | hw
    · by_cases hcs : cfg.checksum ≠ ""
      · rw [if_pos hcs] at hs
        exact Or.inl hs
      · rw [if_neg hcs] at hs
        exact absurd hs ht0
    · exact Or.inr hw
  · unfold writeResHeaders
    simp only [hcc, htag, hm, ne_eq, not_false_eq_true, if_true, hfind]

def c6cfg : FileCfg := ⟨"p", "b", "text/html; charset=utf-8", "gzip", "", "TAG"⟩

theorem writeResHeaders_304_on_etag_match_witness :
    ∃ t, (t = calcStrongETag c6cfg.checksum ∨ t = calcWeakETag c6cfg.tag) ∧
      writeResHeaders "W/\"TAG\"" c6cfg "public" =
        (⟨["Accept-Encoding"], some "public", some t, none, none, some 304⟩, true) :=
  writeResHeaders_304_on_etag_match "W/\"TAG\"" c6cfg "public" (by decide) (by decide)
    (Or.inl (by decide))

/-- C6 counterexample: on a route with an empty `Cache-Control`, a
request whose `If-None-Match` equals the blob's weak ETag is answered
with a full response, not 304, so the claim's unconditional 304 fails. -/
theorem writeResHeaders_no_cachecontrol_counterexample :
    (writeResHeaders "W/\"TAG\"" ⟨"p", "b", "text/html", "gzip", "", "TAG"⟩ "").2 = false ∧
    ¬ (writeResHeaders "W/\"TAG\"" ⟨"p", "b", "text/html", "gzip", "", "TAG"⟩
        "").1.statusWritten = some 304 :=
  ⟨by decide, by decide⟩

/-! ## C10: match-regex gating of pre-compressed alternates -/

theorem detectEncLoop_sound (fs : BlobStore) (tokens : List String) (name : String)
    (encodings : List EncodingRoute) (path : String) (st : Blob) (c : String)
    (h : detectEncLoop fs tokens name encodings = some (path, st, c)) :
    ∃ e ∈ encodings, e.code = c ∧ path = name ++ e.ext ∧
      (∀ p, e.matchR = some p → p name = true) := by
  induction encodings with
  | nil => simp [detectEncLoop] at h
  | cons e rest ih =>
    unfold detectEncLoop at h
    by_cases hc : tokens.contains e.code
    · simp only [hc, if_true] at h
      cases hmr : e.matchR with
      | some p =>
        rw [hmr] at h
        by_cases hp : p name
        · simp only [hp, if_true] at h
          cases hlk : lookupA fs (name ++ e.ext) with
          | some st' =>
            rw [hlk] at h
            by_cases hdir : st'.isDir
            · simp only [hdir, if_true] at h
              obtain ⟨e', he', rest'⟩ := ih h
              exact ⟨e', List.mem_cons_of_mem e he', rest'⟩
            · simp only [hdir, Bool.false_eq_true, if_false] at h
              cases h
              refine ⟨e, List.mem_cons_self e rest, rfl, rfl, ?_⟩
              intro q hq
              rw [hmr] at hq
              cases hq
              exact hp
          | none =>
            rw [hlk] at h
            obtain ⟨e', he', rest'⟩ := ih h
            exact ⟨e', List.mem_cons_of_mem e he', rest'⟩
        · simp only [hp, Bool.false_eq_true, if_false] at h
          obtain ⟨e', he', rest'⟩ := ih h
          exact ⟨e', List.mem_cons_of_mem e he', rest'⟩
      | none =>
        rw [hmr] at h
        simp only [if_true] at h
        cases hlk : lookupA fs (name ++ e.ext) with
        | some st' =>
          rw [hlk] at h
          by_cases hdir : st'.isDir
          · simp only [hdir, if_true] at h
            obtain ⟨e', he', rest'⟩ := ih h
            exact ⟨e', List.mem_cons_of_mem e he', rest'⟩
          · simp only [hdir, Bool.false_eq_true, if_false] at h
            cases h
            refine ⟨e, List.mem_cons_self e rest, rfl, rfl, ?_⟩
            intro q hq
            rw [hmr] at hq
            cases hq
        | none =>
          rw [hlk] at h
          obtain ⟨e', he', rest'⟩ := ih h
          exact ⟨e', List.mem_cons_of_mem e he', rest'⟩
    · simp only [hc, Bool.false_eq_true, if_false] at h
      obtain ⟨e', he', rest'⟩ := ih h
      exact ⟨e', List.mem_cons_of_mem e he', rest'⟩

/-- C10: a pre-compressed alternate for an encoding with a match
predicate is served only when the requested name satisfies the
predicate; and on a route whose single encoding has a failing match
predicate, the identity file is served even when the client accepts the
encoding and the alternate exists on disk. -/
theorem detectEncodingFile_match_gates :
    (∀ (fs : BlobStore) (encodings : List EncodingRoute) (accept name path : String)
        (st : Blob) (c : String),
      detectEncodingFile fs encodings accept name = .ok (path, st, c) → c ≠ "" →
      ∃ e ∈ encodings, e.code = c ∧ path = name ++ e.ext ∧
        (∀ p, e.matchR = some p → p name = true)) ∧
    (∀ (fs : BlobStore) (e : EncodingRoute) (accept name : String) (p : String → Bool)
        (b : Blob),
      e.matchR = some p → p name = false →
      lookupA fs name = some b → b.isDir = false →
      detectEncodingFile fs [e] accept name = .ok (name, b, "")) := by
  constructor
  · intro fs encodings accept name path st c h hcne
    unfold detectEncodingFile at h
    cases hloop : detectEncLoop fs (parseAcceptEncoding accept) name encodings with
    | some r =>
      rw [hloop] at h
      cases h
      exact detectEncLoop_sound fs _ name encodings path st c hloop
    | none =>
      rw [hloop] at h
      cases hlk : lookupA fs name with
      | none =>
        rw [hlk] at h
        cases h
      | some st' =>
        rw [hlk] at h
        by_cases hdir : st'.isDir
        · simp only [hdir, if_true] at h
          cases h
        · simp only [hdir, Bool.false_eq_true, if_false] at h
          cases h
          exact absurd rfl hcne
  · intro fs e accept name p b hmr hp hlk hdir
    have hloop : detectEncLoop fs (parseAcceptEncoding accept) name [e] = none := by
      unfold detectEncLoop
      by_cases hc : (parseAcceptEncoding accept).contains e.code
      · simp only [hc, if_true, hmr, hp, Bool.false_eq_true, if_false]
        rfl
      · simp only [hc, Bool.false_eq_true, if_false]
        rfl
    unfold detectEncodingFile
    rw [hloop, hlk]
    simp [hdir]

def c10fs : BlobStore := [("test.html", ⟨false, 16, 0⟩), ("test.html.gz", ⟨false, 9, 0⟩)]

theorem detectEncodingFile_match_gates_witness :
    detectEncodingFile c10fs [⟨"gzip", some (fun n => n = "testfile.js"), ".gz"⟩]
      "gzip" "test.html" = .ok ("test.html", ⟨false, 16, 0⟩, "") :=
  detectEncodingFile_match_gates.2 c10fs ⟨"gzip", some (fun n => n = "testfile.js"), ".gz"⟩
    "gzip" "test.html" (fun n => n = "testfile.js") ⟨false, 16, 0⟩ rfl (by decide)
    (by decide) rfl


/-! ## C1: blob-ensure decision -/

theorem caaAfterHash_eq_tail (now : Int) (blobs : BlobStore) (eh : String)
    (sf : SrcFile) (ems : Bool)
    (hdg : ∀ b, lookupA blobs sf.digest = some b → b.isDir = false) :
    caaAfterHash now blobs eh sf ems =
      if eh ≠ "" && sf.digest = eh && ems then
        ⟨.ok sf.digest, touchMtime blobs sf.digest sf.mtime, true, false, true⟩
      else if blobOkFor blobs sf.digest sf then
        ⟨.ok sf.digest, blobs, true, false, false⟩
      else caaCopy now blobs sf := by
  by_cases h1 : (eh ≠ "" && sf.digest = eh && ems) = true
  · have hde : sf.digest = eh := by
      simp only [Bool.and_eq_true, decide_eq_true_eq] at h1
      exact h1.1.2
    unfold caaAfterHash
    rw [hde] at h1 ⊢
    rw [if_pos h1]
    rw [if_pos h1]
  · unfold caaAfterHash
    rw [if_neg h1, if_neg h1]
    cases hdl : lookupA blobs sf.digest with
    | none => simp [blobOkFor, hdl]
    | some d =>
      have hdd := hdg d hdl
      by_cases hc1 : d.size = sf.size
      · by_cases hc2 : d.mtime < sf.mtime
        · have hle : ¬ sf.mtime ≤ d.mtime := by omega
          simp [blobOkFor, hdl, hdd, hc1, hc2, hle]
        · have hle : sf.mtime ≤ d.mtime := by omega
          simp [blobOkFor, hdl, hdd, hc1, hc2, hle]
      · simp [blobOkFor, hdl, hdd, hc1]

/-- C1: the blob-ensure decision of the publisher follows the claim's
four cases: (1) with a prior hash whose blob matches the source's size
and is not older, the prior hash is returned without rehashing or
copying; (2) else, after hashing, when the digest equals the prior hash
and the sizes matched, the blob's modification time is set to the
source's and the digest returned without copying; (3) else, when an
up-to-date blob named by the digest exists, the digest is returned
without copying; (4) otherwise the source is copied under the digest
name.  Hypotheses: the source exists and is not a directory, and no
directory occupies the consulted blob names. -/
theorem checkAndAddFileFS_matches_claim (now : Int) (blobs : BlobStore) (srcs : SrcFS)
    (existingHash srcName : String) (sf : SrcFile)
    (hs : lookupA srcs srcName = some sf) (hnd : sf.isDir = false)
    (hex : ∀ b, lookupA blobs existingHash = some b → b.isDir = false)
    (hdg : ∀ b, lookupA blobs sf.digest = some b → b.isDir = false) :
    checkAndAddFileFS now blobs srcs existingHash srcName =
      caaClaim now blobs existingHash sf := by
  unfold checkAndAddFileFS
  rw [hs]
  simp only [hnd, Bool.false_eq_true, if_false]
  by_cases heh : existingHash = ""
  · subst heh
    rw [if_pos rfl]
    rw [caaAfterHash_eq_tail now blobs "" sf false hdg]
    unfold caaClaim
    simp
  · rw [if_neg heh]
    cases hlk : lookupA blobs existingHash with
    | none =>
      rw [caaAfterHash_eq_tail now blobs existingHash sf false hdg]
      unfold caaClaim
      simp [blobOkFor, sizeMatchedAt, hlk]
    | some einfo =>
      have hed := hex einfo hlk
      rw [caaAfterHash_eq_tail now blobs existingHash sf true hdg,
          caaAfterHash_eq_tail now blobs existingHash sf false hdg]
      unfold caaClaim
      by_cases hsz : einfo.size = sf.size
      · by_cases hmt : einfo.mtime < sf.mtime
        · have hle : ¬ sf.mtime ≤ einfo.mtime := by omega
          simp [blobOkFor, sizeMatchedAt, hlk, hed, hsz, hmt, hle, heh]
        · have hle : sf.mtime ≤ einfo.mtime := by omega
          simp [blobOkFor, sizeMatchedAt, hlk, hed, hsz, hmt, hle, heh]
      · simp [blobOkFor, sizeMatchedAt, hlk, hed, hsz, heh]

theorem checkAndAddFileFS_matches_claim_witness :
    checkAndAddFileFS 99 [("E", ⟨false, 3, 10⟩)] [("f", ⟨false, 3, 5, "D"⟩)] "E" "f"
      = caaClaim 99 [("E", ⟨false, 3, 10⟩)] "E" ⟨false, 3, 5, "D"⟩ :=
  checkAndAddFileFS_matches_claim 99 [("E", ⟨false, 3, 10⟩)] [("f", ⟨false, 3, 5, "D"⟩)]
    "E" "f" ⟨false, 3, 5, "D"⟩ (by decide) rfl
    (by
      intro b hb
      have h0 : lookupA [("E", (⟨false, 3, 10⟩ : Blob))] "E" = some ⟨false, 3, 10⟩ := by
        decide
      rw [h0] at hb
      cases hb
      rfl)
    (by
      intro b hb
      have h0 : lookupA [("E", (⟨false, 3, 10⟩ : Blob))] "D" = none := by decide
      rw [h0] at hb
      cases hb)


/-! ## C3: association-list and blob-store lemmas -/

theorem lookupA_cons {α : Type} (p : String × α) (l : List (String × α)) (k : String) :
    lookupA (p :: l) k = if p.1 = k then some p.2 else lookupA l k := by
  unfold lookupA
  rw [List.find?_cons]
  by_cases h : p.1 = k <;> simp [h]

theorem lookupA_eq_none_of_not_any {α : Type} (l : List (String × α)) (k : String)
    (h : l.any (fun p => p.1 = k) = false) : lookupA l k = none := by
  induction l with
  | nil => rfl
  | cons p rest ih =>
    simp only [List.any_cons, Bool.or_eq_false_iff] at h
    rw [lookupA_cons, if_neg (by simpa using h.1)]
    exact ih h.2

theorem lookupA_append {α : Type} (l m : List (String × α)) (k : String) :
    lookupA (l ++ m) k =
      match lookupA l k with
      | some v => some v
      | none => lookupA m k := by
  induction l with
  | nil => rfl
  | cons p rest ih =>
    rw [List.cons_append, lookupA_cons, lookupA_cons]
    by_cases hp : p.1 = k
    · rw [if_pos hp, if_pos hp]
    · rw [if_neg hp, if_neg hp, ih]

theorem lookupA_map_update_same {α : Type} (l : List (String × α)) (k : String) (v : α)
    (h : l.any (fun p => p.1 = k) = true) :
    lookupA (l.map (fun p => if p.1 = k then (k, v) else p)) k = some v := by
  induction l with
  | nil => simp at h
  | cons p rest ih =>
    simp only [List.map_cons]
    by_cases hp : p.1 = k
    · rw [if_pos hp, lookupA_cons, if_pos rfl]
    · rw [if_neg hp, lookupA_cons, if_neg hp]
      simp only [List.any_cons, Bool.or_eq_true] at h
      rcases h with h | h
      · exact absurd (by simpa using h) hp
      · exact ih h

theorem lookupA_map_update_other {α : Type} (l : List (String × α)) (k k' : String) (v : α)
    (h : k' ≠ k) :
    lookupA (l.map (fun p => if p.1 = k then (k, v) else p)) k' = lookupA l k' := by
  induction l with
  | nil => rfl
  | cons p rest ih =>
    simp only [List.map_cons]
    by_cases hp : p.1 = k
    · rw [if_pos hp, lookupA_cons, lookupA_cons]
      have h1 : ¬((k, v).1 = k') := fun hc => h (Eq.symm hc)
      have h2 : ¬(p.1 = k') := fun hc => h (Eq.symm (hp.symm.trans hc))
      rw [if_neg h1, if_neg h2]
      exact ih
    · rw [if_neg hp, lookupA_cons, lookupA_cons]
      by_cases hpk : p.1 = k'
      · rw [if_pos hpk, if_pos hpk]
      · rw [if_neg hpk, if_neg hpk]
        exact ih

theorem lookupA_updateA {α : Type} (l : List (String × α)) (k k' : String) (v : α) :
    lookupA (updateA l k v) k' = if k' = k then some v else lookupA l k' := by
  unfold updateA
  by_cases hany : l.any (fun p => p.1 = k)
  · rw [if_pos hany]
    by_cases hk : k' = k
    · subst hk
      rw [if_pos rfl]
      exact lookupA_map_update_same l k' v hany
    · rw [if_neg hk]
      exact lookupA_map_update_other l k k' v hk
  · have hanyf : l.any (fun p => p.1 = k) = false := by
      cases hb : l.any (fun p => p.1 = k)
      · rfl
      · exact absurd hb hany
    rw [if_neg hany, lookupA_append]
    have hnone : lookupA l k = none := lookupA_eq_none_of_not_any l k hanyf
    by_cases hk : k' = k
    · subst hk
      rw [if_pos rfl, hnone, lookupA_cons, if_pos rfl]
    · rw [if_neg hk]
      cases hfl : lookupA l k' with
      | some q => rfl
      | none =>
        show lookupA [(k, v)] k' = none
        rw [lookupA_cons, if_neg (fun hc : (k, v).1 = k' => hk (Eq.symm hc))]
        rfl

theorem lookupA_touchMtime (l : BlobStore) (h : String) (t : Int) (k : String) :
    lookupA (touchMtime l h t) k =
      if k = h then (lookupA l k).map (fun b => ⟨b.isDir, b.size, t⟩) else lookupA l k := by
  induction l with
  | nil =>
    unfold touchMtime
    simp only [List.map_nil]
    by_cases hk : k = h <;> simp [hk, lookupA]
  | cons p rest ih =>
    unfold touchMtime at ih ⊢
    simp only [List.map_cons]
    by_cases hp : p.1 = h
    · rw [if_pos hp, lookupA_cons, lookupA_cons]
      by_cases hpk : p.1 = k
      · rw [if_pos hpk, if_pos hpk, if_pos (by rw [← hpk, hp])]
        rfl
      · rw [if_neg hpk, if_neg hpk, ih]
    · rw [if_neg hp, lookupA_cons, lookupA_cons]
      by_cases hpk : p.1 = k
      · rw [if_pos hpk, if_pos hpk, if_neg (by rw [← hpk]; exact fun hc => hp hc)]
      · rw [if_neg hpk, if_neg hpk, ih]


/-! ## C3: facts about successful blob-ensure calls -/

/-- A non-directory blob named `h` with the size of source `sf` is
present in the store (the state in which reuse decisions
short-circuit). -/
def GoodAt (blobs : BlobStore) (h : String) (sf : SrcFile) : Prop :=
  ∃ b, lookupA blobs h = some b ∧ b.isDir = false ∧ b.size = sf.size

/-- Digests behave like collision-free content hashes on the source
tree: equal digests imply equal sizes. -/
def digestConsistent (srcs : SrcFS) : Prop :=
  ∀ p ∈ srcs, ∀ q ∈ srcs,
    (p.2 : SrcFile).digest = q.2.digest → p.2.size = q.2.size

theorem lookupA_mem {α : Type} (l : List (String × α)) (k : String) (v : α)
    (h : lookupA l k = some v) : (k, v) ∈ l := by
  unfold lookupA at h
  cases hf : l.find? (fun p => p.1 = k) with
  | none =>
    rw [hf] at h
    simp at h
  | some p =>
    rw [hf] at h
    have hv : p.2 = v := by simpa using h
    have hmem := List.mem_of_find?_eq_some hf
    have hkey : p.1 = k := by simpa using List.find?_some hf
    have hpv : p = (k, v) := by
      cases p
      simp_all
    rw [← hpv]
    exact hmem

/-- The three ways a successful blob-ensure call can change the store:
no change at `k`, the modification time at `k` set to the source's, or
the blob copied fresh under the source's digest. -/
def caaMutation (blobs blobs' : BlobStore) (now : Int) (sf : SrcFile) : Prop :=
  ∀ k, lookupA blobs' k = lookupA blobs k ∨
    (∃ b, lookupA blobs k = some b ∧
      lookupA blobs' k = some ⟨b.isDir, b.size, sf.mtime⟩) ∨
    (k = sf.digest ∧ lookupA blobs' k = some ⟨false, sf.size, now⟩)

theorem caaAfterHash_ok_facts (now : Int) (blobs : BlobStore) (eh : String)
    (sf : SrcFile) (ems : Bool) (h : String)
    (hems : ems = true →
      ∃ b, lookupA blobs eh = some b ∧ b.isDir = false ∧ b.size = sf.size)
    (hres : (caaAfterHash now blobs eh sf ems).res = .ok h) :
    h = sf.digest ∧
    GoodAt (caaAfterHash now blobs eh sf ems).blobs h sf ∧
    caaMutation blobs (caaAfterHash now blobs eh sf ems).blobs now sf := by
  by_cases h1 : (eh ≠ "" && sf.digest = eh && ems) = true
  · have hval : caaAfterHash now blobs eh sf ems =
        ⟨.ok eh, touchMtime blobs eh sf.mtime, true, false, true⟩ := by
      unfold caaAfterHash
      rw [if_pos h1]
    rw [hval] at hres ⊢
    have hparts : eh ≠ "" ∧ sf.digest = eh ∧ ems = true := by
      simp only [Bool.and_eq_true, decide_eq_true_eq] at h1
      exact ⟨h1.1.1, h1.1.2, h1.2⟩
    obtain ⟨b, hb, hbd, hbs⟩ := hems hparts.2.2
    have hres' : Except.ok (ε := TreeErr) eh = .ok h := hres
    have hh : h = eh := (Except.ok.inj hres').symm
    refine ⟨hh.trans hparts.2.1.symm, ?_, ?_⟩
    · refine ⟨⟨b.isDir, b.size, sf.mtime⟩, ?_, by rw [hbd], by rw [hbs]⟩
      show lookupA (touchMtime blobs eh sf.mtime) h = _
      rw [lookupA_touchMtime, if_pos hh, hh, hb]
      rfl
    · intro k
      have hlk : lookupA (touchMtime blobs eh sf.mtime) k
          = if k = eh then (lookupA blobs k).map (fun b => ⟨b.isDir, b.size, sf.mtime⟩)
            else lookupA blobs k :=
        lookupA_touchMtime blobs eh sf.mtime k
      by_cases hk : k = eh
      · refine Or.inr (Or.inl ⟨b, by rw [hk, hb], ?_⟩)
        rw [hlk, if_pos hk, hk, hb]
        rfl
      · exact Or.inl (by rw [hlk, if_neg hk])
  · cases hdl : lookupA blobs sf.digest with
    | some d =>
      have hval : caaAfterHash now blobs eh sf ems =
          (if d.isDir then ⟨.error .dstIsDir, blobs, true, false, false⟩
           else if d.size = sf.size && ¬(d.mtime < sf.mtime) then
             ⟨.ok sf.digest, blobs, true, false, false⟩
           else caaCopy now blobs sf) := by
        unfold caaAfterHash
        rw [if_neg h1, hdl]
      rw [hval] at hres ⊢
      by_cases hdir : d.isDir = true
      · rw [if_pos hdir] at hres
        exact Except.noConfusion
          (show Except.error (α := String) TreeErr.dstIsDir = Except.ok h from hres)
      · rw [if_neg hdir] at hres ⊢
        by_cases hcond : (d.size = sf.size && ¬(d.mtime < sf.mtime)) = true
        · rw [if_pos hcond] at hres ⊢
          have hres' : Except.ok (ε := TreeErr) sf.digest = .ok h := hres
          have hh : h = sf.digest := (Except.ok.inj hres').symm
          have hsz : d.size = sf.size := by
            simp only [Bool.and_eq_true, decide_eq_true_eq] at hcond
            exact hcond.1
          exact ⟨hh, ⟨d, hh ▸ hdl, Bool.eq_false_iff.mpr hdir, hsz⟩, fun k => Or.inl rfl⟩
        · rw [if_neg hcond] at hres ⊢
          have hres' : Except.ok (ε := TreeErr) sf.digest = .ok h := hres
          have hh : h = sf.digest := (Except.ok.inj hres').symm
          refine ⟨hh, ⟨⟨false, sf.size, now⟩, ?_, rfl, rfl⟩, ?_⟩
          · show lookupA (updateA blobs sf.digest ⟨false, sf.size, now⟩) h = _
            rw [lookupA_updateA, if_pos hh]
          · intro k
            have hlk : lookupA (caaCopy now blobs sf).blobs k
                = if k = sf.digest then some ⟨false, sf.size, now⟩
                  else lookupA blobs k := by
              show lookupA (updateA blobs sf.digest ⟨false, sf.size, now⟩) k = _
              rw [lookupA_updateA]
            by_cases hk : k = sf.digest
            · exact Or.inr (Or.inr ⟨hk, by rw [hlk, if_pos hk]⟩)
            · exact Or.inl (by rw [hlk, if_neg hk])
    | none =>
      have hval : caaAfterHash now blobs eh sf ems = caaCopy now blobs sf := by
        unfold caaAfterHash
        rw [if_neg h1, hdl]
      rw [hval] at hres ⊢
      have hres' : Except.ok (ε := TreeErr) sf.digest = .ok h := hres
      have hh : h = sf.digest := (Except.ok.inj hres').symm
      refine ⟨hh, ⟨⟨false, sf.size, now⟩, ?_, rfl, rfl⟩, ?_⟩
      · show lookupA (updateA blobs sf.digest ⟨false, sf.size, now⟩) h = _
        rw [lookupA_updateA, if_pos hh]
      · intro k
        have hlk : lookupA (caaCopy now blobs sf).blobs k
            = if k = sf.digest then some ⟨false, sf.size, now⟩
              else lookupA blobs k := by
          show lookupA (updateA blobs sf.digest ⟨false, sf.size, now⟩) k = _
          rw [lookupA_updateA]
        by_cases hk : k = sf.digest
        · exact Or.inr (Or.inr ⟨hk, by rw [hlk, if_pos hk]⟩)
        · exact Or.inl (by rw [hlk, if_neg hk])


theorem checkAndAddFileFS_eq_existing_some (now : Int) (blobs : BlobStore)
    (srcs : SrcFS) (eh name : String) (sf : SrcFile) (einfo : Blob)
    (hsrc : lookupA srcs name = some sf) (hnd : sf.isDir = false)
    (hel : (if eh = "" then (none : Option Blob) else lookupA blobs eh) = some einfo) :
    checkAndAddFileFS now blobs srcs eh name =
      if ¬einfo.isDir && einfo.size = sf.size then
        if ¬(einfo.mtime < sf.mtime) then ⟨.ok eh, blobs, false, false, false⟩
        else caaAfterHash now blobs eh sf true
      else caaAfterHash now blobs eh sf false := by
  unfold checkAndAddFileFS
  rw [hsrc]
  simp only [hnd, Bool.false_eq_true, if_false]
  rw [hel]

theorem checkAndAddFileFS_eq_existing_none (now : Int) (blobs : BlobStore)
    (srcs : SrcFS) (eh name : String) (sf : SrcFile)
    (hsrc : lookupA srcs name = some sf) (hnd : sf.isDir = false)
    (hel : (if eh = "" then (none : Option Blob) else lookupA blobs eh) = none) :
    checkAndAddFileFS now blobs srcs eh name = caaAfterHash now blobs eh sf false := by
  unfold checkAndAddFileFS
  rw [hsrc]
  simp only [hnd, Bool.false_eq_true, if_false]
  rw [hel]

theorem caa_ok_facts (now : Int) (blobs : BlobStore) (srcs : SrcFS)
    (eh name h : String)
    (hres : (checkAndAddFileFS now blobs srcs eh name).res = .ok h) :
    ∃ sf, lookupA srcs name = some sf ∧ sf.isDir = false ∧
      GoodAt (checkAndAddFileFS now blobs srcs eh name).blobs h sf ∧
      caaMutation blobs (checkAndAddFileFS now blobs srcs eh name).blobs now sf := by
  cases hsrc : lookupA srcs name with
  | none =>
    have hval : checkAndAddFileFS now blobs srcs eh name =
        ⟨.error .notFound, blobs, false, false, false⟩ := by
      unfold checkAndAddFileFS
      rw [hsrc]
    rw [hval] at hres
    exact Except.noConfusion
      (show Except.error (α := String) TreeErr.notFound = Except.ok h from hres)
  | some sf =>
    by_cases hdir : sf.isDir = true
    · have hval : checkAndAddFileFS now blobs srcs eh name =
          ⟨.error .srcIsDir, blobs, false, false, false⟩ := by
        unfold checkAndAddFileFS
        rw [hsrc]
        simp only [hdir, if_true]
      rw [hval] at hres
      exact Except.noConfusion
        (show Except.error (α := String) TreeErr.srcIsDir = Except.ok h from hres)
    · have hnd : sf.isDir = false := Bool.eq_false_iff.mpr hdir
      refine ⟨sf, rfl, hnd, ?_⟩
      cases hel : (if eh = "" then (none : Option Blob) else lookupA blobs eh) with
      | some einfo =>
        have hlkeh : lookupA blobs eh = some einfo := by
          by_cases he0 : eh = ""
          · rw [if_pos he0] at hel
            exact Option.noConfusion hel
          · rw [if_neg he0] at hel
            exact hel
        rw [checkAndAddFileFS_eq_existing_some now blobs srcs eh name sf einfo
          hsrc hnd hel] at hres ⊢
        by_cases hguard : (¬einfo.isDir && einfo.size = sf.size) = true
        · rw [if_pos hguard] at hres ⊢
          simp only [Bool.and_eq_true, decide_eq_true_eq] at hguard
          have hgd : einfo.isDir = false := Bool.eq_false_iff.mpr hguard.1
          by_cases hmt : ¬(einfo.mtime < sf.mtime)
          · rw [if_pos hmt] at hres ⊢
            have hres' : Except.ok (ε := TreeErr) eh = .ok h := hres
            have hh : h = eh := (Except.ok.inj hres').symm
            exact ⟨⟨einfo, hh ▸ hlkeh, hgd, hguard.2⟩, fun k => Or.inl rfl⟩
          · rw [if_neg hmt] at hres ⊢
            have hf := caaAfterHash_ok_facts now blobs eh sf true h
              (fun _ => ⟨einfo, hlkeh, hgd, hguard.2⟩) hres
            exact ⟨hf.2.1, hf.2.2⟩
        · rw [if_neg hguard] at hres ⊢
          have hf := caaAfterHash_ok_facts now blobs eh sf false h
            (fun hc => Bool.noConfusion hc) hres
          exact ⟨hf.2.1, hf.2.2⟩
      | none =>
        rw [checkAndAddFileFS_eq_existing_none now blobs srcs eh name sf
          hsrc hnd hel] at hres ⊢
        have hf := caaAfterHash_ok_facts now blobs eh sf false h
          (fun hc => Bool.noConfusion hc) hres
        exact ⟨hf.2.1, hf.2.2⟩

theorem caa_second_call (now : Int) (blobs : BlobStore) (srcs : SrcFS)
    (name h : String) (sf : SrcFile)
    (hs : lookupA srcs name = some sf) (hnd : sf.isDir = false)
    (hdg : sf.digest = h) (hne : h ≠ "")
    (hgood : GoodAt blobs h sf) :
    (checkAndAddFileFS now blobs srcs h name).res = .ok h ∧
    (checkAndAddFileFS now blobs srcs h name).copied = false ∧
    (∀ k, lookupA (checkAndAddFileFS now blobs srcs h name).blobs k = lookupA blobs k ∨
      ∃ b, lookupA blobs k = some b ∧
        lookupA (checkAndAddFileFS now blobs srcs h name).blobs k
          = some ⟨b.isDir, b.size, sf.mtime⟩) := by
  obtain ⟨b, hb, hbd, hbs⟩ := hgood
  have hel : (if h = "" then (none : Option Blob) else lookupA blobs h) = some b := by
    rw [if_neg hne, hb]
  rw [checkAndAddFileFS_eq_existing_some now blobs srcs h name sf b hs hnd hel]
  have hguard : (¬b.isDir && b.size = sf.size) = true := by
    simp [hbd, hbs]
  rw [if_pos hguard]
  by_cases hmt : ¬(b.mtime < sf.mtime)
  · rw [if_pos hmt]
    exact ⟨rfl, rfl, fun k => Or.inl rfl⟩
  · rw [if_neg hmt]
    have hval : caaAfterHash now blobs h sf true =
        ⟨.ok h, touchMtime blobs h sf.mtime, true, false, true⟩ := by
      unfold caaAfterHash
      rw [if_pos (by simp [hne, hdg])]
    rw [hval]
    refine ⟨rfl, rfl, ?_⟩
    intro k
    have hlk : lookupA (touchMtime blobs h sf.mtime) k
        = if k = h then (lookupA blobs k).map (fun b => ⟨b.isDir, b.size, sf.mtime⟩)
          else lookupA blobs k :=
      lookupA_touchMtime blobs h sf.mtime k
    by_cases hk : k = h
    · refine Or.inr ⟨b, by rw [hk, hb], ?_⟩
      rw [hlk, if_pos hk, hk, hb]
      rfl
    · exact Or.inl (by rw [hlk, if_neg hk])

/-! ## C3: the idempotence of Add -/

theorem lookupA_foldl_updateA_not_mem (l : List EncodedContent)
    (acc : List (String × String)) (k : String)
    (h : ∀ e ∈ l, e.code ≠ k) :
    lookupA (l.foldl (fun a e => updateA a e.code e.hash) acc) k = lookupA acc k := by
  induction l generalizing acc with
  | nil => rfl
  | cons e rest ih =>
    simp only [List.foldl_cons]
    rw [ih _ (fun x hx => h x (List.mem_cons_of_mem e hx))]
    rw [lookupA_updateA, if_neg (fun hc => h e (List.mem_cons_self e rest) hc.symm)]

theorem lookupA_codeToHash (l : List EncodedContent) :
    ∀ (acc : List (String × String)) (ec : EncodedContent),
    ec ∈ l → (l.map EncodedContent.code).Nodup →
    lookupA (l.foldl (fun a e => updateA a e.code e.hash) acc) ec.code = some ec.hash := by
  induction l with
  | nil =>
    intro acc ec h
    simp at h
  | cons e rest ih =>
    intro acc ec hmem hnd
    simp only [List.map_cons, List.nodup_cons] at hnd
    simp only [List.foldl_cons]
    rcases List.mem_cons.mp hmem with heq | hmem'
    · subst heq
      rw [lookupA_foldl_updateA_not_mem rest _ ec.code
        (fun x hx hc => hnd.1 (hc ▸ List.mem_map_of_mem _ hx))]
      rw [lookupA_updateA, if_pos rfl]
    · exact ih _ ec hmem' hnd.2

/-- A blob named `h` that lets the blob-ensure call short-circuit for
source `sf`: a present non-directory of the source's size whose
modification time is not before the source's, under a non-empty name. -/
def FreshAt (blobs : BlobStore) (h : String) (sf : SrcFile) : Prop :=
  h ≠ "" ∧ ∃ b, lookupA blobs h = some b ∧ b.isDir = false ∧
    b.size = sf.size ∧ ¬(b.mtime < sf.mtime)

/-- The two ways a blob-ensure call with no prior hash can change the
store: no change at `k`, or a fresh copy at the source's digest. -/
def freshMutation (blobs blobs' : BlobStore) (now : Int) (sf : SrcFile) : Prop :=
  ∀ k, lookupA blobs' k = lookupA blobs k ∨
    (k = sf.digest ∧ lookupA blobs' k = some ⟨false, sf.size, now⟩)

/-- Source digests are non-empty and the publisher's clock is not
behind any source modification time. -/
def srcsOk (now : Int) (srcs : SrcFS) : Prop :=
  ∀ p ∈ srcs, (p.2 : SrcFile).digest ≠ "" ∧ ¬(now < p.2.mtime)

theorem caa_empty_facts (now : Int) (blobs : BlobStore) (srcs : SrcFS)
    (name h : String) (hok : srcsOk now srcs)
    (hres : (checkAndAddFileFS now blobs srcs "" name).res = .ok h) :
    ∃ sf, lookupA srcs name = some sf ∧ sf.isDir = false ∧ h = sf.digest ∧
      FreshAt (checkAndAddFileFS now blobs srcs "" name).blobs h sf ∧
      freshMutation blobs (checkAndAddFileFS now blobs srcs "" name).blobs now sf := by
  cases hsrc : lookupA srcs name with
  | none =>
    have hval : checkAndAddFileFS now blobs srcs "" name
        = ⟨.error .notFound, blobs, false, false, false⟩ := by
      unfold checkAndAddFileFS
      rw [hsrc]
    rw [hval] at hres
    exact Except.noConfusion
      (show Except.error (α := String) TreeErr.notFound = Except.ok h from hres)
  | some sf =>
    by_cases hdir : sf.isDir = true
    · have hval : checkAndAddFileFS now blobs srcs "" name
          = ⟨.error .srcIsDir, blobs, false, false, false⟩ := by
        unfold checkAndAddFileFS
        rw [hsrc]
        simp only [hdir, if_true]
      rw [hval] at hres
      exact Except.noConfusion
        (show Except.error (α := String) TreeErr.srcIsDir = Except.ok h from hres)
    · have hnd : sf.isDir = false := Bool.eq_false_iff.mpr hdir
      have hel : (if ("" : String) = "" then (none : Option Blob)
          else lookupA blobs "") = none := by rw [if_pos rfl]
      rw [checkAndAddFileFS_eq_existing_none now blobs srcs "" name sf hsrc hnd hel]
        at hres ⊢
      have hmemsf : (name, sf) ∈ srcs := lookupA_mem _ _ _ hsrc
      have hdig : sf.digest ≠ "" := (hok _ hmemsf).1
      have hnow : ¬(now < sf.mtime) := (hok _ hmemsf).2
      cases hdl : lookupA blobs sf.digest with
      | some d =>
        have hval : caaAfterHash now blobs "" sf false =
            (if d.isDir then ⟨.error .dstIsDir, blobs, true, false, false⟩
             else if d.size = sf.size && ¬(d.mtime < sf.mtime) then
               ⟨.ok sf.digest, blobs, true, false, false⟩
             else caaCopy now blobs sf) := by
          unfold caaAfterHash
          rw [if_neg (by simp), hdl]
        rw [hval] at hres ⊢
        by_cases hdd : d.isDir = true
        · rw [if_pos hdd] at hres
          exact Except.noConfusion
            (show Except.error (α := String) TreeErr.dstIsDir = Except.ok h from hres)
        · rw [if_neg hdd] at hres ⊢
          by_cases hcond : (d.size = sf.size && ¬(d.mtime < sf.mtime)) = true
          · rw [if_pos hcond] at hres ⊢
            have hh : h = sf.digest :=
              (Except.ok.inj (show Except.ok (ε := TreeErr) sf.digest = .ok h from hres)).symm
            have hparts : d.size = sf.size ∧ ¬(d.mtime < sf.mtime) := by
              simp only [Bool.and_eq_true, decide_eq_true_eq] at hcond
              exact hcond
            refine ⟨sf, rfl, hnd, hh,
              ⟨by rw [hh]; exact hdig, d, by rw [hh]; exact hdl,
                Bool.eq_false_iff.mpr hdd, hparts.1, hparts.2⟩,
              fun k => Or.inl rfl⟩
          · rw [if_neg hcond] at hres ⊢
            have hh : h = sf.digest :=
              (Except.ok.inj (show Except.ok (ε := TreeErr) sf.digest = .ok h from hres)).symm
            refine ⟨sf, rfl, hnd, hh, ?_, ?_⟩
            · refine ⟨by rw [hh]; exact hdig, ⟨false, sf.size, now⟩, ?_, rfl, rfl, hnow⟩
              show lookupA (updateA blobs sf.digest ⟨false, sf.size, now⟩) h = _
              rw [lookupA_updateA, if_pos hh]
            · intro k
              have hlk : lookupA (caaCopy now blobs sf).blobs k
                  = if k = sf.digest then some ⟨false, sf.size, now⟩
                    else lookupA blobs k := by
                show lookupA (updateA blobs sf.digest ⟨false, sf.size, now⟩) k = _
                rw [lookupA_updateA]
              by_cases hk : k = sf.digest
              · exact Or.inr ⟨hk, by rw [hlk, if_pos hk]⟩
              · exact Or.inl (by rw [hlk, if_neg hk])
      | none =>
        have hval : caaAfterHash now blobs "" sf false = caaCopy now blobs sf := by
          unfold caaAfterHash
          rw [if_neg (by simp), hdl]
        rw [hval] at hres ⊢
        have hh : h = sf.digest :=
          (Except.ok.inj (show Except.ok (ε := TreeErr) sf.digest = .ok h from hres)).symm
        refine ⟨sf, rfl, hnd, hh, ?_, ?_⟩
        · refine ⟨by rw [hh]; exact hdig, ⟨false, sf.size, now⟩, ?_, rfl, rfl, hnow⟩
          show lookupA (updateA blobs sf.digest ⟨false, sf.size, now⟩) h = _
          rw [lookupA_updateA, if_pos hh]
        · intro k
          have hlk : lookupA (caaCopy now blobs sf).blobs k
              = if k = sf.digest then some ⟨false, sf.size, now⟩
                else lookupA blobs k := by
            show lookupA (updateA blobs sf.digest ⟨false, sf.size, now⟩) k = _
            rw [lookupA_updateA]
          by_cases hk : k = sf.digest
          · exact Or.inr ⟨hk, by rw [hlk, if_pos hk]⟩
          · exact Or.inl (by rw [hlk, if_neg hk])

theorem freshAt_preserved (blobs blobs' : BlobStore) (now : Int) (srcs : SrcFS)
    (hcons : digestConsistent srcs) (hok : srcsOk now srcs)
    (sfm : SrcFile) (nm : String) (hsfm : lookupA srcs nm = some sfm)
    (hmut : freshMutation blobs blobs' now sfm)
    (h : String) (sf : SrcFile) (nm2 : String) (hsf : lookupA srcs nm2 = some sf)
    (hdg : sf.digest = h) (hg : FreshAt blobs h sf) : FreshAt blobs' h sf := by
  obtain ⟨hne, b, hb, hbd, hbs, hbm⟩ := hg
  rcases hmut h with heq | ⟨hk, hb'⟩
  · exact ⟨hne, b, heq ▸ hb, hbd, hbs, hbm⟩
  · have hdd : sf.digest = sfm.digest := hdg.trans hk
    have hsz : sf.size = sfm.size :=
      hcons (nm2, sf) (lookupA_mem _ _ _ hsf) (nm, sfm) (lookupA_mem _ _ _ hsfm) hdd
    have hnow : ¬(now < sf.mtime) := (hok (nm2, sf) (lookupA_mem _ _ _ hsf)).2
    exact ⟨hne, ⟨false, sfm.size, now⟩, hb', rfl, hsz.symm, hnow⟩

theorem addEncodedFoldEmpty_facts (now : Int) (srcs : SrcFS)
    (hcons : digestConsistent srcs) (hok : srcsOk now srcs) :
    ∀ (entries : List (String × String)) (blobs blobs' : BlobStore)
      (encList : List EncodedContent) (anyC : Bool),
    addEncodedFold now blobs srcs [] entries = .ok (blobs', encList, anyC) →
    (List.Forall₂ (fun (e : String × String) (ec : EncodedContent) =>
       ec.code = e.1 ∧ ∃ sf, lookupA srcs e.2 = some sf ∧ sf.isDir = false ∧
         ec.hash = sf.digest ∧ FreshAt blobs' ec.hash sf) entries encList) ∧
    (∀ (h : String) (sf : SrcFile) (nm : String), lookupA srcs nm = some sf →
       sf.digest = h → FreshAt blobs h sf → FreshAt blobs' h sf) := by
  intro entries
  induction entries with
  | nil =>
    intro blobs blobs' encList anyC hfold
    have hfold' : Except.ok (ε := TreeErr) (blobs, ([] : List EncodedContent), false)
        = .ok (blobs', encList, anyC) := hfold
    have heq := Except.ok.inj hfold'
    have hb : blobs = blobs' := congrArg Prod.fst heq
    have he : ([] : List EncodedContent) = encList := congrArg (fun t => t.2.1) heq
    subst hb
    rw [← he]
    exact ⟨List.Forall₂.nil, fun h sf nm _ _ hg => hg⟩
  | cons e rest ih =>
    obtain ⟨code, name⟩ := e
    intro blobs blobs' encList anyC hfold
    have hgetd : (lookupA ([] : List (String × String)) code).getD "" = "" := rfl
    cases hr : (checkAndAddFileFS now blobs srcs "" name).res with
    | error e0 =>
      have hval : addEncodedFold now blobs srcs [] ((code, name) :: rest)
          = .error e0 := by
        simp only [addEncodedFold]
        rw [hgetd, hr]
      rw [hval] at hfold
      exact Except.noConfusion hfold
    | ok h =>
      obtain ⟨sf0, hsf0, hnd0, hh0, hfr0, hmut0⟩ :=
        caa_empty_facts now blobs srcs name h hok hr
      cases hrec : addEncodedFold now
          (checkAndAddFileFS now blobs srcs "" name).blobs srcs [] rest with
      | error e0 =>
        have hval : addEncodedFold now blobs srcs [] ((code, name) :: rest)
            = .error e0 := by
          simp only [addEncodedFold]
          rw [hgetd, hr, hrec]
        rw [hval] at hfold
        exact Except.noConfusion hfold
      | ok triple =>
        obtain ⟨b2, l2, c2⟩ := triple
        have hval : addEncodedFold now blobs srcs [] ((code, name) :: rest)
            = .ok (b2, ⟨code, h⟩ :: l2,
                (checkAndAddFileFS now blobs srcs "" name).copied || c2) := by
          simp only [addEncodedFold]
          rw [hgetd, hr, hrec]
        rw [hval] at hfold
        have hpair := Except.ok.inj hfold
        have hb2 : b2 = blobs' := congrArg Prod.fst hpair
        have hl2 : (⟨code, h⟩ :: l2 : List EncodedContent) = encList :=
          congrArg (fun t => t.2.1) hpair
        subst hb2
        rw [← hl2]
        obtain ⟨ihfa, ihpres⟩ :=
          ih (checkAndAddFileFS now blobs srcs "" name).blobs b2 l2 c2 hrec
        constructor
        · refine List.Forall₂.cons ⟨rfl, sf0, hsf0, hnd0, hh0, ?_⟩ ihfa
          exact ihpres h sf0 name hsf0 hh0.symm hfr0
        · intro h' sf' nm hsf' hdg' hg'
          exact ihpres h' sf' nm hsf' hdg'
            (freshAt_preserved blobs _ now srcs hcons hok sf0 name hsf0 hmut0
              h' sf' nm hsf' hdg' hg')

theorem caa_fresh_short (now : Int) (blobs : BlobStore) (srcs : SrcFS)
    (name h : String) (sf : SrcFile)
    (hs : lookupA srcs name = some sf) (hnd : sf.isDir = false)
    (hg : FreshAt blobs h sf) :
    checkAndAddFileFS now blobs srcs h name = ⟨.ok h, blobs, false, false, false⟩ := by
  obtain ⟨hne, b, hb, hbd, hbs, hbm⟩ := hg
  have hel : (if h = "" then (none : Option Blob) else lookupA blobs h) = some b := by
    rw [if_neg hne, hb]
  rw [checkAndAddFileFS_eq_existing_some now blobs srcs h name sf b hs hnd hel]
  rw [if_pos (show (¬b.isDir && b.size = sf.size) = true by simp [hbd, hbs])]
  rw [if_pos hbm]

theorem addEncodedFold_second (now : Int) (blobs : BlobStore) (srcs : SrcFS)
    (c2h : List (String × String)) :
    ∀ (entries : List (String × String)) (encList : List EncodedContent),
    List.Forall₂ (fun (e : String × String) (ec : EncodedContent) =>
      ec.code = e.1 ∧ lookupA c2h e.1 = some ec.hash ∧
      ∃ sf, lookupA srcs e.2 = some sf ∧ sf.isDir = false ∧
        FreshAt blobs ec.hash sf) entries encList →
    addEncodedFold now blobs srcs c2h entries = .ok (blobs, encList, false) := by
  intro entries
  induction entries with
  | nil =>
    intro encList hfa
    cases hfa
    rfl
  | cons e rest ih =>
    obtain ⟨code, name⟩ := e
    intro encList hfa
    cases hfa with
    | cons hhead htail =>
      rename_i ec l2
      obtain ⟨hcode, hlk, sf, hsf, hnd, hfr⟩ := hhead
      have hcode' : ec.code = code := hcode
      have hlk' : lookupA c2h code = some ec.hash := hlk
      have hgetd : (lookupA c2h code).getD "" = ec.hash := by
        rw [hlk']
        rfl
      have hstep := caa_fresh_short now blobs srcs name ec.hash sf hsf hnd hfr
      have hval : addEncodedFold now blobs srcs c2h ((code, name) :: rest)
          = match (checkAndAddFileFS now blobs srcs ec.hash name).res with
            | .error e => .error e
            | .ok h =>
              match addEncodedFold now
                  (checkAndAddFileFS now blobs srcs ec.hash name).blobs srcs c2h rest with
              | .error e => .error e
              | .ok (b2, l, c) =>
                .ok (b2, ⟨code, h⟩ :: l,
                  (checkAndAddFileFS now blobs srcs ec.hash name).copied || c) := by
        simp only [addEncodedFold]
        rw [hgetd]
      rw [hstep] at hval
      rw [ih l2 htail] at hval
      have hval2 : addEncodedFold now blobs srcs c2h ((code, name) :: rest)
          = .ok (blobs, (⟨code, ec.hash⟩ : EncodedContent) :: l2, false) := hval.trans rfl
      have hce : (⟨code, ec.hash⟩ : EncodedContent) = ec := by
        rw [← hcode']
      rw [hce] at hval2
      exact hval2

theorem zipSelfAll (l : List EncodedContent) :
    (l.zip l).all (fun p => p.1 = p.2) = true := by
  induction l with
  | nil => rfl
  | cons x xs ih => simp [List.zip_cons_cons, List.all_cons, ih]

theorem equalCfg_refl (a : ContentConfig) : equalCfg a a = true := by
  unfold equalCfg
  rw [if_neg (not_not_intro rfl), if_neg (not_not_intro rfl),
    if_neg (not_not_intro rfl)]
  exact zipSelfAll a.encoded

theorem forall2_and_mem {α β : Type} (R : α → β → Prop) :
    ∀ (l1 : List α) (l2 : List β), List.Forall₂ R l1 l2 →
    List.Forall₂ (fun a b => R a b ∧ b ∈ l2) l1 l2 := by
  intro l1 l2 h
  induction h with
  | nil => exact .nil
  | cons hr htail ih =>
    exact .cons ⟨hr, List.mem_cons_self _ _⟩
      (ih.imp (fun a b hab => ⟨hab.1, List.mem_cons_of_mem _ hab.2⟩))

theorem forall2_map_eq {α β : Type} (f : α → String) (g : β → String)
    (R : α → β → Prop) (hR : ∀ a b, R a b → g b = f a) :
    ∀ l1 l2, List.Forall₂ R l1 l2 → l2.map g = l1.map f := by
  intro l1 l2 h
  induction h with
  | nil => rfl
  | cons hr _ ih => simp only [List.map_cons, ih, hR _ _ hr]

/-- C3 (amended): for a destination not yet in the tree DB, adding the
same dst, content type, source file and encoded-file list twice over an
unchanged source tree is a no-op the second time — the rebuilt record
equals the stored one, so the second call writes neither the tree DB
nor the blob store and reports no copy — provided the encoding codes
are pairwise distinct, source digests are non-empty and
collision-consistent, and the publish time is not before any source
modification time.  (With a duplicate encoding code the second call can
rebuild a different record and write the DB again; see the
counterexample.) -/
theorem add_twice_noop (now : Int) (db : TreeDb) (blobs : BlobStore) (srcs : SrcFS)
    (dst ctype src : String) (encoded : List (String × String)) (out1 : AddOut)
    (hcons : digestConsistent srcs) (hok : srcsOk now srcs)
    (hnodup : (encoded.map Prod.fst).Nodup)
    (hprior : lookupA db (pathClean dst) = none)
    (h1 : addOp now db blobs srcs dst ctype src encoded = .ok out1) :
    addOp now out1.db out1.blobs srcs dst ctype src encoded
      = .ok ⟨out1.db, out1.blobs, out1.cfg, false, false⟩ := by
  by_cases hdst : dst = ""
  · have hval : addOp now db blobs srcs dst ctype src encoded = .error .invalidArg := by
      unfold addOp
      rw [if_pos hdst]
    rw [hval] at h1
    exact Except.noConfusion h1
  by_cases hany : encoded.any (fun e => e.1 = "") = true
  · have hval : addOp now db blobs srcs dst ctype src encoded = .error .invalidArg := by
      unfold addOp
      rw [if_neg hdst, if_pos hany]
    rw [hval] at h1
    exact Except.noConfusion h1
  simp only [addOp] at h1
  rw [if_neg hdst, if_neg hany, hprior] at h1
  simp only [Option.map_none', Option.getD_none, List.foldl_nil] at h1
  cases hr0 : (checkAndAddFileFS now blobs srcs "" src).res with
  | error e0 =>
    rw [hr0] at h1
    exact Except.noConfusion (show Except.error (α := AddOut) e0 = .ok out1 from h1)
  | ok h0 =>
    rw [hr0] at h1
    obtain ⟨sf0, hsf0, hnd0, hh0, hfr0, hmut0⟩ :=
      caa_empty_facts now blobs srcs src h0 hok hr0
    cases hrec : addEncodedFold now
        (checkAndAddFileFS now blobs srcs "" src).blobs srcs [] encoded with
    | error e0 =>
      rw [hrec] at h1
      exact Except.noConfusion (show Except.error (α := AddOut) e0 = .ok out1 from h1)
    | ok triple =>
      obtain ⟨blobs1, encList, anyC⟩ := triple
      rw [hrec] at h1
      have h1' : Except.ok (⟨updateA db (pathClean dst) ⟨h0, ctype, encList⟩, blobs1,
          ⟨h0, ctype, encList⟩, true,
          (checkAndAddFileFS now blobs srcs "" src).copied || anyC⟩ : AddOut)
          = .ok out1 := h1
      have hout : out1 = ⟨updateA db (pathClean dst) ⟨h0, ctype, encList⟩, blobs1,
          ⟨h0, ctype, encList⟩, true,
          (checkAndAddFileFS now blobs srcs "" src).copied || anyC⟩ :=
        (Except.ok.inj h1').symm
      subst hout
      obtain ⟨hfa, hpres⟩ := addEncodedFoldEmpty_facts now srcs hcons hok encoded
        (checkAndAddFileFS now blobs srcs "" src).blobs blobs1 encList anyC hrec
      have hfr0' : FreshAt blobs1 h0 sf0 := hpres h0 sf0 src hsf0 hh0.symm hfr0
      -- Forall₂ data for the second pass over the encoded entries
      have hmapeq : encList.map EncodedContent.code = encoded.map Prod.fst :=
        forall2_map_eq Prod.fst EncodedContent.code _ (fun a b hab => hab.1) _ _ hfa
      have hnd2 : (encList.map EncodedContent.code).Nodup := by
        rw [hmapeq]
        exact hnodup
      have hfa2 : List.Forall₂ (fun (e : String × String) (ec : EncodedContent) =>
          ec.code = e.1 ∧
          lookupA (encList.foldl (fun acc e => updateA acc e.code e.hash) []) e.1
            = some ec.hash ∧
          ∃ sf, lookupA srcs e.2 = some sf ∧ sf.isDir = false ∧
            FreshAt blobs1 ec.hash sf) encoded encList := by
        refine (forall2_and_mem _ _ _ hfa).imp ?_
        rintro e ec ⟨⟨hcode, sf, hsf, hndsf, hhash, hfr⟩, hmem⟩
        refine ⟨hcode, ?_, sf, hsf, hndsf, hfr⟩
        rw [← hcode]
        exact lookupA_codeToHash encList [] ec hmem hnd2
      have hfold2 : addEncodedFold now blobs1 srcs
          (encList.foldl (fun acc e => updateA acc e.code e.hash) []) encoded
          = .ok (blobs1, encList, false) :=
        addEncodedFold_second now blobs1 srcs _ encoded encList hfa2
      -- run the second call
      show addOp now (updateA db (pathClean dst) ⟨h0, ctype, encList⟩) blobs1 srcs
          dst ctype src encoded
        = .ok ⟨updateA db (pathClean dst) ⟨h0, ctype, encList⟩, blobs1,
            ⟨h0, ctype, encList⟩, false, false⟩
      have hlk2 : lookupA (updateA db (pathClean dst) ⟨h0, ctype, encList⟩)
          (pathClean dst) = some ⟨h0, ctype, encList⟩ := by
        rw [lookupA_updateA]
        exact if_pos rfl
      simp only [addOp]
      rw [if_neg hdst, if_neg hany, hlk2]
      simp only [Option.map_some', Option.getD_some]
      rw [caa_fresh_short now blobs1 srcs src h0 sf0 hsf0 hnd0 hfr0']
      have hor : (⟨Except.ok h0, blobs1, false, false, false⟩ : CAAOut).res
          = Except.ok h0 := rfl
      have hob : (⟨Except.ok h0, blobs1, false, false, false⟩ : CAAOut).blobs
          = blobs1 := rfl
      rw [hor, hob, hfold2]
      show (if equalCfg ⟨h0, ctype, encList⟩ ⟨h0, ctype, encList⟩ = true then
          Except.ok (ε := TreeErr)
            (⟨updateA db (pathClean dst) ⟨h0, ctype, encList⟩, blobs1,
              ⟨h0, ctype, encList⟩, false,
              (⟨Except.ok h0, blobs1, false, false, false⟩ : CAAOut).copied || false⟩ : AddOut)
        else Except.ok
            ⟨updateA (updateA db (pathClean dst) ⟨h0, ctype, encList⟩) (pathClean dst)
              ⟨h0, ctype, encList⟩, blobs1, ⟨h0, ctype, encList⟩, true,
              (⟨Except.ok h0, blobs1, false, false, false⟩ : CAAOut).copied || false⟩)
        = Except.ok ⟨updateA db (pathClean dst) ⟨h0, ctype, encList⟩, blobs1,
            ⟨h0, ctype, encList⟩, false, false⟩
      rw [if_pos (equalCfg_refl _)]
      rfl

instance (srcs : SrcFS) : Decidable (digestConsistent srcs) := by
  unfold digestConsistent
  infer_instance

instance (now : Int) (srcs : SrcFS) : Decidable (srcsOk now srcs) := by
  unfold srcsOk
  infer_instance

/-- Source tree for the C3 witness: a primary file and one encoded
file, with distinct non-empty digests. -/
def c3wSrcs : SrcFS := [("p", ⟨false, 1, 0, "hp"⟩), ("f", ⟨false, 2, 0, "hg"⟩)]

/-- The result of the first `Add` in the C3 witness scenario. -/
def c3wOut1 : AddOut :=
  ⟨[("d", ⟨"hp", "t", [⟨"gzip", "hg"⟩]⟩)],
   [("hp", ⟨false, 1, 5⟩), ("hg", ⟨false, 2, 5⟩)],
   ⟨"hp", "t", [⟨"gzip", "hg"⟩]⟩, true, true⟩

theorem add_twice_noop_witness :
    digestConsistent c3wSrcs ∧ srcsOk 5 c3wSrcs ∧
    addOp 5 [] [] c3wSrcs "d" "t" "p" [("gzip", "f")] = .ok c3wOut1 ∧
    addOp 5 c3wOut1.db c3wOut1.blobs c3wSrcs "d" "t" "p" [("gzip", "f")]
      = .ok ⟨c3wOut1.db, c3wOut1.blobs, c3wOut1.cfg, false, false⟩ := by
  refine ⟨by decide, by decide, by decide,
    add_twice_noop 5 [] [] c3wSrcs "d" "t" "p" [("gzip", "f")] c3wOut1
      (by decide) (by decide) (by decide) (by decide) (by decide)⟩

/-- Source tree for the C3 counterexample: two encoded files of equal
size with different digests, to be listed under the same code. -/
def c3dSrcs : SrcFS :=
  [("p", ⟨false, 1, 0, "hp"⟩), ("fa", ⟨false, 1, 0, "ha"⟩), ("fb", ⟨false, 1, 0, "hb"⟩)]

/-- The result of the first `Add` in the C3 counterexample scenario. -/
def c3dOut1 : AddOut :=
  ⟨[("d", ⟨"hp", "t", [⟨"gzip", "ha"⟩, ⟨"gzip", "hb"⟩]⟩)],
   [("hp", ⟨false, 1, 5⟩), ("ha", ⟨false, 1, 5⟩), ("hb", ⟨false, 1, 5⟩)],
   ⟨"hp", "t", [⟨"gzip", "ha"⟩, ⟨"gzip", "hb"⟩]⟩, true, true⟩

/-- The result of the second, identical `Add` in the C3 counterexample
scenario: it rebuilds a different record and writes the tree DB. -/
def c3dOut2 : AddOut :=
  ⟨[("d", ⟨"hp", "t", [⟨"gzip", "hb"⟩, ⟨"gzip", "hb"⟩]⟩)],
   [("hp", ⟨false, 1, 5⟩), ("ha", ⟨false, 1, 5⟩), ("hb", ⟨false, 1, 5⟩)],
   ⟨"hp", "t", [⟨"gzip", "hb"⟩, ⟨"gzip", "hb"⟩]⟩, true, false⟩

/-- C3 counterexample: with the encoding code `gzip` listed twice, the
second `Add` with identical inputs and unchanged sources rebuilds a
different record (the code-to-hash index collapses the duplicate to the
last hash) and performs a tree-DB update, so it is not a no-op. -/
theorem add_twice_duplicate_codes_not_noop :
    digestConsistent c3dSrcs ∧ srcsOk 5 c3dSrcs ∧
    addOp 5 [] [] c3dSrcs "d" "t" "p" [("gzip", "fa"), ("gzip", "fb")] = .ok c3dOut1 ∧
    addOp 5 c3dOut1.db c3dOut1.blobs c3dSrcs "d" "t" "p"
      [("gzip", "fa"), ("gzip", "fb")] = .ok c3dOut2 ∧
    c3dOut2.dbWrote = true ∧ c3dOut2.cfg ≠ c3dOut1.cfg := by
  decide

end FsServe
